import Mathlib

/-!
Verification development for the `Neusoft_TestCaseGen` repository.

The development shallowly embeds the response-recovery subsystem
(`parse_util.robust_json_parse`), the stage adapters
(`generate_chain.parse_features` / `parse_test_points` / `parse_test_cases`,
and the parsing cores of the `api.py` endpoints), the full-pipeline
orchestrator (`api.run_full_pipeline`), and the streaming accumulator
(`model_util.generate_response_vllm_stream`).

Texts are modelled as `List Char`.  Python's `json.loads` is modelled by a
fuel-based recursive-descent parser over a JSON value type; JSON numbers are
modelled as integers (floating-point numbers, NaN/Infinity and `\uXXXX`
surrogate pairs are outside the model - no claim depends on them).
-/

namespace TCG

/-- The backtick character (written via its code point). -/
def btick : Char := Char.ofNat 96

/-- Python `str.strip` / `re` `\s` whitespace (the ASCII whitespace set:
space, tab, newline, carriage return, vertical tab, form feed). -/
def isPyWs (c : Char) : Bool :=
  c = ' ' || c = '\t' || c = '\n' || c = '\r' || c = Char.ofNat 11 || c = Char.ofNat 12

/-- JSON whitespace as used by Python's `json` module (space, tab, newline,
carriage return). -/
def isJsonWs (c : Char) : Bool :=
  c = ' ' || c = '\t' || c = '\n' || c = '\r'

/-- Left strip with respect to a whitespace predicate. -/
def lstripBy (p : Char → Bool) (l : List Char) : List Char :=
  l.dropWhile p

/-- Right strip with respect to a whitespace predicate. -/
def rstripBy (p : Char → Bool) (l : List Char) : List Char :=
  (l.reverse.dropWhile p).reverse

/-- Two-sided strip with respect to a whitespace predicate. -/
def stripBy (p : Char → Bool) (l : List Char) : List Char :=
  rstripBy p (lstripBy p l)

/-- Model of Python `str.strip()`. -/
def stripPy (l : List Char) : List Char := stripBy isPyWs l

/-- Model of Python `str.rstrip()`. -/
def rstripPy (l : List Char) : List Char := rstripBy isPyWs l

/-- Strip by JSON whitespace (used by the `json.loads` model). -/
def jstrip (l : List Char) : List Char := stripBy isJsonWs l

/-- Model of Python `str.find` for a single character: index of the first
occurrence, `none` when absent (`-1` in Python). -/
def findChar (c : Char) : List Char → Option Nat
  | [] => none
  | x :: xs => if x = c then some 0 else (findChar c xs).map (· + 1)

/-- Model of Python `str.rfind` for a single character: index of the last
occurrence, `none` when absent. -/
def rfindChar (c : Char) (l : List Char) : Option Nat :=
  (findChar c l.reverse).map (fun i => l.length - 1 - i)

/-- The slice `text[i : j + 1]` used by the brace/bracket strategies. -/
def sliceIncl (l : List Char) (i j : Nat) : List Char :=
  (l.drop i).take (j + 1 - i)

/-- Decidable substring test: `hasSub pat l` holds when `pat` occurs as a
contiguous run inside `l`. -/
def hasSub (pat : List Char) : List Char → Bool
  | [] => decide (pat = [])
  | c :: rest => pat.isPrefixOf (c :: rest) || hasSub pat rest

/-- Model of Python `str.split("\n")`: splits at every newline, keeping empty
pieces. -/
def splitNl : List Char → List (List Char)
  | [] => [[]]
  | c :: rest =>
    if c = '\n' then [] :: splitNl rest
    else
      match splitNl rest with
      | [] => [[c]]
      | l :: ls => (c :: l) :: ls

/-- Model of `"\n".join`. -/
def joinNl : List (List Char) → List Char
  | [] => []
  | [l] => l
  | l :: ls => l ++ '\n' :: joinNl ls

/-- JSON values as produced by the `json.loads` model.  Objects are
association lists built with Python-dict insertion semantics (a duplicate key
overwrites the value in place), numbers are integers. -/
inductive JValue where
  | null : JValue
  | bool (b : Bool) : JValue
  | num (n : Int) : JValue
  | str (s : List Char) : JValue
  | arr (xs : List JValue) : JValue
  | obj (kvs : List (List Char × JValue)) : JValue

/-- Python-dict insertion: overwrite in place when the key is present,
append otherwise. -/
def dictInsert (kvs : List (List Char × JValue)) (k : List Char) (v : JValue) :
    List (List Char × JValue) :=
  match kvs with
  | [] => [(k, v)]
  | (k', v') :: rest =>
    if k' = k then (k', v) :: rest else (k', v') :: dictInsert rest k v

/-- Python-dict lookup on the association list of an object. -/
def dictLookup (kvs : List (List Char × JValue)) (k : List Char) : Option JValue :=
  match kvs with
  | [] => none
  | (k', v') :: rest => if k' = k then some v' else dictLookup rest k

/-- Hex digit decoding for `\uXXXX` escapes. -/
def hexVal (c : Char) : Option Nat :=
  if '0' ≤ c ∧ c ≤ '9' then some (c.toNat - '0'.toNat)
  else if 'a' ≤ c ∧ c ≤ 'f' then some (c.toNat - 'a'.toNat + 10)
  else if 'A' ≤ c ∧ c ≤ 'F' then some (c.toNat - 'A'.toNat + 10)
  else none

/-- Decimal digit test. -/
def isDigit (c : Char) : Bool := '0' ≤ c && c ≤ '9'

/-- String body scanner of the `json.loads` model: consumes characters after
an opening quote up to and including the closing quote, decoding the standard
escapes.  Raw control characters are rejected (strict mode), unpaired or
surrogate `\uXXXX` escapes are outside the model. -/
def parseStringBody : Nat → List Char → Option (List Char × List Char)
  | 0, _ => none
  | _ + 1, [] => none
  | fuel + 1, c :: rest =>
    if c = '"' then some ([], rest)
    else if c = '\\' then
      match rest with
      | [] => none
      | e :: rest' =>
        let cont (d : Char) (rem : List Char) : Option (List Char × List Char) :=
          (parseStringBody fuel rem).map (fun (s, r) => (d :: s, r))
        if e = '"' then cont '"' rest'
        else if e = '\\' then cont '\\' rest'
        else if e = '/' then cont '/' rest'
        else if e = 'b' then cont (Char.ofNat 8) rest'
        else if e = 'f' then cont (Char.ofNat 12) rest'
        else if e = 'n' then cont '\n' rest'
        else if e = 'r' then cont '\r' rest'
        else if e = 't' then cont '\t' rest'
        else if e = 'u' then
          match rest' with
          | h1 :: h2 :: h3 :: h4 :: rest'' =>
            match hexVal h1, hexVal h2, hexVal h3, hexVal h4 with
            | some a, some b, some c3, some d =>
              let n := ((a * 16 + b) * 16 + c3) * 16 + d
              if 0xd800 ≤ n ∧ n ≤ 0xdfff then none
              else cont (Char.ofNat n) rest''
            | _, _, _, _ => none
          | _ => none
        else none
    else if c.toNat < 32 then none
    else (parseStringBody fuel rest).map (fun (s, r) => (c :: s, r))

/-- Digit-run to natural number. -/
def digitsToNat (ds : List Char) : Nat :=
  ds.foldl (fun acc c => acc * 10 + (c.toNat - '0'.toNat)) 0

/-- Number scanner of the `json.loads` model: an optional minus sign and an
integer part with the JSON leading-zero rule.  A following `.`/`e`/`E`
(a float) is outside the model and makes the scanner fail. -/
def parseNumber (l : List Char) : Option (JValue × List Char) :=
  let core (m : List Char) (neg : Bool) : Option (JValue × List Char) :=
    match m with
    | [] => none
    | d :: rest =>
      if ¬ isDigit d then none
      else
        let (digits, rest') :=
          if d = '0' then ([d], rest)
          else (d :: rest.takeWhile isDigit, rest.dropWhile isDigit)
        match rest' with
        | c :: _ =>
          if c = '.' ∨ c = 'e' ∨ c = 'E' then none
          else
            let n : Int := Int.ofNat (digitsToNat digits)
            some (JValue.num (if neg then -n else n), rest')
        | [] =>
          let n : Int := Int.ofNat (digitsToNat digits)
          some (JValue.num (if neg then -n else n), [])
  match l with
  | '-' :: rest => core rest true
  | _ => core l false

mutual

/-- Value dispatch of the `json.loads` model (after internal whitespace
skipping): objects, arrays, strings, the three literals, or a number. -/
def parseValueF : Nat → List Char → Option (JValue × List Char)
  | 0, _ => none
  | fuel + 1, l =>
    match l.dropWhile isJsonWs with
    | [] => none
    | c :: rest =>
      if c = '{' then parseObjBody fuel rest
      else if c = '[' then parseArrBody fuel rest
      else if c = '"' then
        (parseStringBody (rest.length + 1) rest).map (fun (s, r) => (JValue.str s, r))
      else if c = 't' then
        match rest with
        | 'r' :: 'u' :: 'e' :: r => some (JValue.bool true, r)
        | _ => none
      else if c = 'f' then
        match rest with
        | 'a' :: 'l' :: 's' :: 'e' :: r => some (JValue.bool false, r)
        | _ => none
      else if c = 'n' then
        match rest with
        | 'u' :: 'l' :: 'l' :: r => some (JValue.null, r)
        | _ => none
      else parseNumber (c :: rest)

/-- Object body: the input starts immediately after `{`. -/
def parseObjBody : Nat → List Char → Option (JValue × List Char)
  | 0, _ => none
  | fuel + 1, l =>
    match l.dropWhile isJsonWs with
    | '}' :: rest => some (JValue.obj [], rest)
    | l' => parseMembers fuel [] l'

/-- Member list of an object: the input starts at a key's opening quote. -/
def parseMembers : Nat → List (List Char × JValue) → List Char →
    Option (JValue × List Char)
  | 0, _, _ => none
  | fuel + 1, acc, l =>
    match l with
    | '"' :: rest =>
      match parseStringBody (rest.length + 1) rest with
      | none => none
      | some (k, r1) =>
        match r1.dropWhile isJsonWs with
        | ':' :: r2 =>
          match parseValueF fuel r2 with
          | none => none
          | some (v, r3) =>
            let acc' := dictInsert acc k v
            match r3.dropWhile isJsonWs with
            | ',' :: r4 => parseMembers fuel acc' (r4.dropWhile isJsonWs)
            | '}' :: r4 => some (JValue.obj acc', r4)
            | _ => none
        | _ => none
    | _ => none

/-- Array body: the input starts immediately after `[`. -/
def parseArrBody : Nat → List Char → Option (JValue × List Char)
  | 0, _ => none
  | fuel + 1, l =>
    match l.dropWhile isJsonWs with
    | ']' :: rest => some (JValue.arr [], rest)
    | l' => parseElems fuel [] l'

/-- Element list of an array: the input starts at an element. -/
def parseElems : Nat → List JValue → List Char → Option (JValue × List Char)
  | 0, _, _ => none
  | fuel + 1, acc, l =>
    match parseValueF fuel l with
    | none => none
    | some (v, r1) =>
      match r1.dropWhile isJsonWs with
      | ',' :: r2 => parseElems fuel (acc ++ [v]) r2
      | ']' :: r2 => some (JValue.arr (acc ++ [v]), r2)
      | _ => none

end

/-- Fuel bound for the recursive-descent parser: at most three recursive
steps are spent per consumed character. -/
def jsonFuel (l : List Char) : Nat := 3 * l.length + 8

/-- Model of Python's `json.loads`: strip JSON whitespace, parse one value,
and require that it consumes the whole remainder (`none` models a raised
`json.JSONDecodeError`). -/
def json_parse (text : List Char) : Option JValue :=
  match parseValueF (jsonFuel (jstrip text)) (jstrip text) with
  | some (v, []) => some v
  | _ => none

/-- Whether a list starts with three backticks (the closing-fence test and
the untagged opening-fence test of the code-block regexes). -/
def startsWith3Bt : List Char → Bool
  | a :: b :: c :: _ => a = btick && b = btick && c = btick
  | _ => false

/-- Whether a list starts with three backticks followed by `json`
case-insensitively (the opening of a tagged fence, `re.IGNORECASE`). -/
def startsWithJsonTag : List Char → Bool
  | a :: b :: c :: d :: e :: f :: g :: _ =>
    a = btick && b = btick && c = btick &&
    d.toLower = 'j' && e.toLower = 's' && f.toLower = 'o' && g.toLower = 'n'
  | _ => false

/-- Split a list at the first suffix satisfying `p`: returns the part before
the match and the suffix starting at the match. -/
def splitAtFirst (p : List Char → Bool) : List Char → Option (List Char × List Char)
  | [] => none
  | c :: rest =>
    if p (c :: rest) then some ([], c :: rest)
    else (splitAtFirst p rest).map (fun pr => (c :: pr.1, pr.2))

/-- Opening-fence test for a tagged (` ```json `) or untagged (` ``` `)
code-block scan. -/
def openerPred : Bool → List Char → Bool
  | true => startsWithJsonTag
  | false => startsWith3Bt

/-- Length of the opening fence marker. -/
def openerLen : Bool → Nat
  | true => 7
  | false => 3

/-- Fueled scan for the non-overlapping code-block matches of
`re.findall(r'```json\s*([\s\S]*?)\s*```', text, re.IGNORECASE)` (tagged) and
`re.findall(r'```\s*([\s\S]*?)\s*```', text)` (untagged).  Each capture is
returned raw (the regex's surrounding `\s*` trimming is subsumed by the
`match.strip()` the caller performs); scanning continues after the closing
fence. -/
def fencesFromF (tagged : Bool) : Nat → List Char → List (List Char)
  | 0, _ => []
  | fuel + 1, l =>
    match splitAtFirst (openerPred tagged) l with
    | none => []
    | some (_, rest) =>
      let afterOpen := rest.drop (openerLen tagged)
      match splitAtFirst startsWith3Bt afterOpen with
      | none => []
      | some (cap, closeRest) => cap :: fencesFromF tagged fuel (closeRest.drop 3)

/-- The list of fenced-block captures in order of appearance. -/
def fences (tagged : Bool) (l : List Char) : List (List Char) :=
  fencesFromF tagged l.length l

/-- Strategy 1 loop: for each tagged capture in order, strip and attempt a
strict parse; first success wins. -/
def tryTagged : List (List Char) → Option JValue
  | [] => none
  | m :: rest =>
    match json_parse (stripPy m) with
    | some v => some v
    | none => tryTagged rest

/-- Strategy 2 loop: for each untagged capture in order, strip, check that
the content starts with `{` or `[`, and attempt a strict parse. -/
def tryUntagged : List (List Char) → Option JValue
  | [] => none
  | m :: rest =>
    match stripPy m with
    | c :: cs =>
      if c = '{' ∨ c = '[' then
        match json_parse (c :: cs) with
        | some v => some v
        | none => tryUntagged rest
      else tryUntagged rest
    | [] => tryUntagged rest

/-- Drop up to (but not including) the next newline: the span removed by
`re.sub(r'//.*?$', '', s, flags=re.MULTILINE)` after a `//`. -/
def dropToEol (l : List Char) : List Char := l.dropWhile (· ≠ '\n')

/-- Fueled worker for `rmLineComments` (the fuel is only a structural
termination device; one unit is spent per consumed character, so the list's
length is always sufficient). -/
def rmLineCommentsF : Nat → List Char → List Char
  | 0, l => l
  | _ + 1, [] => []
  | fuel + 1, c :: rest =>
    if c = '/' ∧ rest.head? = some '/' then rmLineCommentsF fuel (dropToEol rest.tail)
    else c :: rmLineCommentsF fuel rest

/-- Model of `re.sub(r'//.*?$', '', json_str, flags=re.MULTILINE)`: remove
from each `//` to the end of its line. -/
def rmLineComments (l : List Char) : List Char := rmLineCommentsF l.length l

/-- Whether a list starts with `*/`. -/
def startsWithStarSlash : List Char → Bool
  | '*' :: '/' :: _ => true
  | _ => false

/-- Fueled worker for `rmBlockComments`. -/
def rmBlockCommentsF : Nat → List Char → List Char
  | 0, l => l
  | _ + 1, [] => []
  | fuel + 1, c :: rest =>
    if c = '/' ∧ rest.head? = some '*' then
      match splitAtFirst startsWithStarSlash rest.tail with
      | some (_, closeRest) => rmBlockCommentsF fuel (closeRest.drop 2)
      | none => c :: rmBlockCommentsF fuel rest
    else c :: rmBlockCommentsF fuel rest

/-- Model of `re.sub(r'/\*.*?\*/', '', json_str, flags=re.DOTALL)`: remove
each lazily-matched `/* ... */` block; a `/*` with no closing `*/` is left in
place. -/
def rmBlockComments (l : List Char) : List Char := rmBlockCommentsF l.length l

/-- A closing brace or bracket (the character class `[}\]]`). -/
def closerChar (c : Char) : Bool := c = '}' || c = ']'

/-- Fueled worker for `stripTrailingCommas`. -/
def stripTrailingCommasF : Nat → List Char → List Char
  | 0, l => l
  | _ + 1, [] => []
  | fuel + 1, c :: rest =>
    if c = ',' then
      match rest.dropWhile isPyWs with
      | d :: r2 =>
        if closerChar d then rest.takeWhile isPyWs ++ d :: stripTrailingCommasF fuel r2
        else c :: stripTrailingCommasF fuel rest
      | [] => c :: stripTrailingCommasF fuel rest
    else c :: stripTrailingCommasF fuel rest

/-- Model of `re.sub(r',(\s*[}\]])', r'\1', json_str)`: every comma followed
by optional whitespace and a closing brace/bracket is removed (all
non-overlapping occurrences, left to right). -/
def stripTrailingCommas (l : List Char) : List Char := stripTrailingCommasF l.length l

/-- One attempt of strategy 5 at prefix length `i`: join the first `i` lines,
require the right-stripped text to end with `}`, and strictly parse. -/
def strat5Attempt (ls : List (List Char)) (i : Nat) : Option JValue :=
  let pref := joinNl (ls.take i)
  if (rstripPy pref).getLast? = some '}' then json_parse pref else none

/-- Strategy 5 countdown: `for i in range(len(lines), 0, -1)`, returning the
first (longest) `}`-terminated line prefix that strictly parses. -/
def strat5Down (ls : List (List Char)) : Nat → Option JValue
  | 0 => none
  | i + 1 =>
    match strat5Attempt ls (i + 1) with
    | some v => some v
    | none => strat5Down ls i

/-- Strategies 3-5: slice from the first `{` to the last `}`, try a strict
parse, then the comment/trailing-comma repairs, then the shrinking
line-prefix recovery (which operates on the repaired slice, as in the
source). -/
def strat345 (text : List Char) : Option JValue :=
  match findChar '{' text, rfindChar '}' text with
  | some fb, some lb =>
    if fb < lb then
      let js := sliceIncl text fb lb
      match json_parse js with
      | some v => some v
      | none =>
        let js2 := stripTrailingCommas (rmBlockComments (rmLineComments js))
        match json_parse js2 with
        | some v => some v
        | none => strat5Down (splitNl js2) (splitNl js2).length
    else none
  | _, _ => none

/-- Strategy 6: slice from the first `[` to the last `]` and try a strict
parse. -/
def strat6 (text : List Char) : Option JValue :=
  match findChar '[' text, rfindChar ']' text with
  | some fb, some lb =>
    if fb < lb then json_parse (sliceIncl text fb lb) else none
  | _, _ => none

/-- Python exception classes raised or caught by the embedded code.
`isValueErrorClass` mirrors `isinstance(e, ValueError)`:
`json.JSONDecodeError` subclasses `ValueError`, and pydantic v2's
`ValidationError` also does; the attribute/key/type errors do not. -/
inductive PyExc where
  | valueError (msg : List Char)
  | jsonDecodeError (preview : List Char)
  | attributeError
  | keyError (k : List Char)
  | typeError
  | validationError
deriving DecidableEq, Repr

/-- Python's `isinstance(e, ValueError)` over the modelled classes. -/
def isValueErrorClass : PyExc → Bool
  | .valueError _ => true
  | .jsonDecodeError _ => true
  | .validationError => true
  | _ => false

/-- The message of the empty-input `ValueError` in `robust_json_parse`. -/
def msgEmptyInput : List Char := "输入文本为空".toList

/-- Model of `parse_util.robust_json_parse`: the empty-input guard followed
by the six-strategy chain; a final failure raises `json.JSONDecodeError`
carrying a 200-character preview of the text. -/
def robust_json_parse (text : List Char) : Except PyExc JValue :=
  if stripPy text = [] then .error (.valueError msgEmptyInput)
  else
    match tryTagged (fences true text) with
    | some v => .ok v
    | none =>
      match tryUntagged (fences false text) with
      | some v => .ok v
      | none =>
        match strat345 text with
        | some v => .ok v
        | none =>
          match strat6 text with
          | some v => .ok v
          | none => .error (.jsonDecodeError (text.take 200))

/-- Digit character for a value below ten. -/
def digitChar (d : Nat) : Char := Char.ofNat ('0'.toNat + d)

/-- Fueled decimal rendering of a natural number. -/
def natToStringF : Nat → Nat → List Char
  | 0, _ => []
  | fuel + 1, n =>
    if n < 10 then [digitChar n]
    else natToStringF fuel (n / 10) ++ [digitChar (n % 10)]

/-- Decimal rendering of a natural number (Python `str(i)` for `i ≥ 0`). -/
def natToString (n : Nat) : List Char := natToStringF (n + 1) n

/-- Decimal rendering of an integer (Python `str(i)`). -/
def intToString (i : Int) : List Char :=
  if i < 0 then '-' :: natToString i.natAbs else natToString i.natAbs

/-- Comma-and-space separated join used by the `repr` model. -/
def joinCommaSep : List (List Char) → List Char
  | [] => []
  | [l] => l
  | l :: ls => l ++ ',' :: ' ' :: joinCommaSep ls

mutual

/-- A simplified model of Python `repr` on parsed JSON values (string
escaping inside `repr` is not modelled). -/
def pyReprJ : JValue → List Char
  | .null => "None".toList
  | .bool true => "True".toList
  | .bool false => "False".toList
  | .num n => intToString n
  | .str s => '\'' :: s ++ ['\'']
  | .arr xs => '[' :: joinCommaSep (pyReprList xs) ++ [']']
  | .obj kvs => '{' :: joinCommaSep (pyReprKVs kvs) ++ ['}']

/-- `repr` of the elements of a list value. -/
def pyReprList : List JValue → List (List Char)
  | [] => []
  | x :: xs => pyReprJ x :: pyReprList xs

/-- `repr` of the key/value pairs of a dict value. -/
def pyReprKVs : List (List Char × JValue) → List (List Char)
  | [] => []
  | (k, v) :: rest => ('\'' :: k ++ '\'' :: ':' :: ' ' :: pyReprJ v) :: pyReprKVs rest

end

/-- Model of Python `str()` as used inside f-strings: strings render bare,
everything else as its `repr`. -/
def pyStrJ : JValue → List Char
  | .str s => s
  | v => pyReprJ v

/-- Python truthiness of a parsed JSON value (`if not x`). -/
def pyTruthy : JValue → Bool
  | .null => false
  | .bool b => b
  | .num n => n != 0
  | .str s => !s.isEmpty
  | .arr xs => !xs.isEmpty
  | .obj kvs => !kvs.isEmpty

/-- Python `len()` on a parsed JSON value; `TypeError` on numbers, booleans
and `None`. -/
def pyLenJ : JValue → Except PyExc Nat
  | .str s => pure s.length
  | .arr xs => pure xs.length
  | .obj kvs => pure kvs.length
  | _ => throw .typeError

/-- Python iteration over a parsed JSON value: lists yield elements, strings
yield one-character strings, dicts yield their keys; other values raise
`TypeError`. -/
def pyIter : JValue → Except PyExc (List JValue)
  | .arr xs => pure xs
  | .str s => pure (s.map (fun c => .str [c]))
  | .obj kvs => pure (kvs.map (fun kv => .str kv.1))
  | _ => throw .typeError

/-- Python `x.get(k, default)`: `AttributeError` when `x` is not a dict. -/
def jGetD (v : JValue) (k : List Char) (d : JValue) : Except PyExc JValue :=
  match v with
  | .obj kvs => pure ((dictLookup kvs k).getD d)
  | _ => throw .attributeError

/-- Python `x[k]` for a string key: `KeyError` when absent, `TypeError` when
`x` is not subscriptable by strings. -/
def jSub (v : JValue) (k : List Char) : Except PyExc JValue :=
  match v with
  | .obj kvs =>
    match dictLookup kvs k with
    | some x => pure x
    | none => throw (.keyError k)
  | _ => throw .typeError

/-- `isinstance(x, dict)`. -/
def jIsDict : JValue → Bool
  | .obj _ => true
  | _ => false

/-- `k in x` for a dict `x` (`false` on non-dicts; the adapters only use it
together with `jIsDict`). -/
def jHasKey (v : JValue) (k : List Char) : Bool :=
  match v with
  | .obj kvs => (dictLookup kvs k).isSome
  | _ => false

/-- `x is None`. -/
def jIsNull : JValue → Bool
  | .null => true
  | _ => false

/-- Model of Python `str(e)` for the modelled exception classes. -/
def excMsg : PyExc → List Char
  | .valueError m => m
  | .jsonDecodeError pv => "无法从文本中提取有效的JSON。文本开头: ".toList ++ pv ++ "...".toList
  | .attributeError => "AttributeError".toList
  | .keyError k => '\'' :: k ++ ['\'']
  | .typeError => "TypeError".toList
  | .validationError => "ValidationError".toList

/-- Stage keys and message/template constants of the adapters. -/
def keyFeatures : List Char := "features".toList

def keyTestPoints : List Char := "test_points".toList

def keyTestCases : List Char := "test_cases".toList

def msgMissingFeatures : List Char := "Parse error: missing 'features' field".toList

def msgNoFeatures : List Char := "No features generated".toList

def msgMissingTestPoints : List Char := "Parse error: missing 'test_points' field".toList

def msgNoTestPoints : List Char := "No test points generated".toList

def msgMissingTestCases : List Char := "Parse error: missing 'test_cases' field".toList

def msgNoTestCases : List Char := "No test cases generated".toList

def okStatus : List Char := "✅ Generation complete".toList

/-- The `⚠️ Parse failed` error surface shared by the three
`generate_chain` adapters: exception message plus a 500-character preview of
the raw reply. -/
def stageErrOutput (e : PyExc) (response : List Char) : List Char :=
  "⚠️ Parse failed\n\n**Error:** ".toList ++ excMsg e
    ++ "\n\n**Raw output:**\n```\n".toList ++ response.take 500
    ++ (if 500 < response.length then "...".toList else [])
    ++ "\n```".toList

/-- The `Error: ...` status line of a failed stage. -/
def stageErrThinking (e : PyExc) : List Char := "Error: ".toList ++ excMsg e

/-- One iteration of the feature-rendering loop of
`generate_chain.parse_features`. -/
def renderFeatureLine (acc : List Char) (feature : JValue) : Except PyExc (List Char) := do
  let fid ← jGetD feature ("id".toList) (.str ("?".toList))
  let fname ← jGetD feature ("name".toList) (.str ("Unknown".toList))
  let fdesc ← jGetD feature ("description".toList) (.str ("No description".toList))
  pure (acc ++ "### ".toList ++ pyStrJ fid ++ ". ".toList ++ pyStrJ fname
    ++ "\n".toList ++ pyStrJ fdesc ++ "\n\n".toList)

/-- One element of the `features_choices` comprehension (subscripting, so a
missing `id`/`name` raises `KeyError`). -/
def featureChoice (feature : JValue) : Except PyExc (List Char) := do
  let fid ← jSub feature ("id".toList)
  let fname ← jSub feature ("name".toList)
  pure (pyStrJ fid ++ ". ".toList ++ pyStrJ fname)

/-- The `try`-block of `generate_chain.parse_features`: recovery parse,
mapping/key validation, non-emptiness validation, then rendering. -/
def parse_features_body (response : List Char) :
    Except PyExc (List Char × List Char × JValue × List (List Char)) := do
  let result ← robust_json_parse response
  if !jIsDict result || !jHasKey result keyFeatures then
    throw (.valueError msgMissingFeatures)
  let features ← jGetD result keyFeatures (.arr [])
  if jIsNull features then
    throw (.valueError msgNoFeatures)
  let n ← pyLenJ features
  if n = 0 then
    throw (.valueError msgNoFeatures)
  let items ← pyIter features
  let output ← items.foldlM renderFeatureLine ("## Generated Features\n\n".toList)
  let choices ← items.mapM featureChoice
  pure (output, okStatus, features, choices)

/-- The `except`-branch result of `generate_chain.parse_features`. -/
def featureFailure (response : List Char) (e : PyExc) :
    List Char × List Char × JValue × List (List Char) :=
  (stageErrOutput e response, stageErrThinking e, JValue.arr [], [])

/-- Model of `generate_chain.parse_features`. -/
def parse_features (response : List Char) :
    List Char × List Char × JValue × List (List Char) :=
  match parse_features_body response with
  | .ok r => r
  | .error e => featureFailure response e

/-- One iteration of the test-point rendering loop of
`generate_chain.parse_test_points`. -/
def renderTestPointLine (acc : List Char) (tp : JValue) : Except PyExc (List Char) := do
  let tid ← jGetD tp ("id".toList) (.str ("?".toList))
  let tname ← jGetD tp ("name".toList) (.str ("Unknown".toList))
  let ttype ← jGetD tp ("type".toList) (.str ("Unspecified".toList))
  let tprio ← jGetD tp ("priority".toList) (.str ("Unspecified".toList))
  let tdesc ← jGetD tp ("description".toList) (.str ("No description".toList))
  let tpre ← jGetD tp ("precondition".toList) (.str ("None".toList))
  let texp ← jGetD tp ("expected_result".toList) (.str ("None".toList))
  pure (acc ++ "#### ".toList ++ pyStrJ tid ++ ". ".toList ++ pyStrJ tname
    ++ "\n- **Type**: ".toList ++ pyStrJ ttype
    ++ "\n- **Priority**: ".toList ++ pyStrJ tprio
    ++ "\n- **Description**: ".toList ++ pyStrJ tdesc
    ++ "\n- **Precondition**: ".toList ++ pyStrJ tpre
    ++ "\n- **Expected Result**: ".toList ++ pyStrJ texp ++ "\n\n".toList)

/-- The `try`-block of `generate_chain.parse_test_points`. -/
def parse_test_points_body (feature : JValue) (response : List Char) :
    Except PyExc (List Char × List Char × JValue) := do
  let result ← robust_json_parse response
  if !jIsDict result || !jHasKey result keyTestPoints then
    throw (.valueError msgMissingTestPoints)
  let test_points ← jGetD result keyTestPoints (.arr [])
  if !pyTruthy test_points then
    throw (.valueError msgNoTestPoints)
  let fname ← jSub feature ("name".toList)
  let items ← pyIter test_points
  let output ← items.foldlM renderTestPointLine
    ("## Feature: ".toList ++ pyStrJ fname ++ "\n\n".toList ++ "### Test Points\n\n".toList)
  pure (output, okStatus, test_points)

/-- The `except`-branch result of `generate_chain.parse_test_points` and
`parse_test_cases`. -/
def stageFailure3 (response : List Char) (e : PyExc) : List Char × List Char × JValue :=
  (stageErrOutput e response, stageErrThinking e, JValue.arr [])

/-- Model of `generate_chain.parse_test_points`. -/
def parse_test_points (feature : JValue) (response : List Char) :
    List Char × List Char × JValue :=
  match parse_test_points_body feature response with
  | .ok r => r
  | .error e => stageFailure3 response e

/-- One iteration of the inner test-step rendering loop of
`generate_chain.parse_test_cases`. -/
def renderStepLine (acc : List Char) (step : JValue) : Except PyExc (List Char) := do
  let sn ← jGetD step ("step".toList) (.str ("?".toList))
  let sact ← jGetD step ("action".toList) (.str ("No action".toList))
  let sexp ← jGetD step ("expected".toList) (.str ("None".toList))
  pure (acc ++ "  ".toList ++ pyStrJ sn ++ ". ".toList ++ pyStrJ sact
    ++ "\n     - Expected: ".toList ++ pyStrJ sexp ++ "\n".toList)

/-- One iteration of the test-case rendering loop of
`generate_chain.parse_test_cases`. -/
def renderTestCaseBlock (acc : List Char) (tc : JValue) : Except PyExc (List Char) := do
  let cid ← jGetD tc ("case_id".toList) (.str ("?".toList))
  let ctitle ← jGetD tc ("title".toList) (.str ("Unknown".toList))
  let cprio ← jGetD tc ("priority".toList) (.str ("Unspecified".toList))
  let cpre ← jGetD tc ("precondition".toList) (.str ("None".toList))
  let steps ← jGetD tc ("test_steps".toList) (.arr [])
  let stepsOut ←
    if pyTruthy steps then do
      let ss ← pyIter steps
      ss.foldlM renderStepLine []
    else
      pure ("  (No test steps)\n".toList)
  let cdata ← jGetD tc ("test_data".toList) (.str ("None".toList))
  let cexp ← jGetD tc ("expected_result".toList) (.str ("None".toList))
  let cpost ← jGetD tc ("postcondition".toList) (.str ("None".toList))
  pure (acc ++ "#### ".toList ++ pyStrJ cid ++ ": ".toList ++ pyStrJ ctitle
    ++ "\n- **Priority**: ".toList ++ pyStrJ cprio
    ++ "\n- **Precondition**: ".toList ++ pyStrJ cpre
    ++ "\n- **Test Steps**:\n".toList ++ stepsOut
    ++ "- **Test Data**: ".toList ++ pyStrJ cdata
    ++ "\n- **Expected Result**: ".toList ++ pyStrJ cexp
    ++ "\n- **Postcondition**: ".toList ++ pyStrJ cpost ++ "\n\n".toList)

/-- The `try`-block of `generate_chain.parse_test_cases`. -/
def parse_test_cases_body (response : List Char) (feature test_point : JValue) :
    Except PyExc (List Char × List Char × JValue) := do
  let result ← robust_json_parse response
  if !jIsDict result || !jHasKey result keyTestCases then
    throw (.valueError msgMissingTestCases)
  let test_cases ← jGetD result keyTestCases (.arr [])
  if !pyTruthy test_cases then
    throw (.valueError msgNoTestCases)
  let fname ← jSub feature ("name".toList)
  let tpname ← jSub test_point ("name".toList)
  let items ← pyIter test_cases
  let output ← items.foldlM renderTestCaseBlock
    ("## Feature: ".toList ++ pyStrJ fname ++ "\n".toList
      ++ "### Test Point: ".toList ++ pyStrJ tpname ++ "\n\n".toList
      ++ "### Test Cases\n\n".toList)
  pure (output, okStatus, test_cases)

/-- Model of `generate_chain.parse_test_cases`. -/
def parse_test_cases (response : List Char) (feature test_point : JValue) :
    List Char × List Char × JValue :=
  match parse_test_cases_body response feature test_point with
  | .ok r => r
  | .error e => stageFailure3 response e

/-- The uniform response shape of the three `api.py` endpoints
(`FeaturesResponse` / `TestPointsResponse` / `TestCasesResponse`): a success
flag, the record list, and the raw reply or error message. -/
structure ApiStageResponse where
  success : Bool
  records : List JValue
  raw_response : Option (List Char)
  error : Option (List Char)

/-- Pydantic validation of a `List[dict]` response field: only a list whose
elements are all dicts is accepted. -/
def pydanticListDict : JValue → Except PyExc (List JValue)
  | .arr xs => if xs.all jIsDict then pure xs else throw .validationError
  | _ => throw .validationError

/-- The post-reply part of an `api.py` endpoint's `try`-block: recovery
parse, `result.get(key, [])`, and response-model validation.  Note the
absence of the mapping/key/non-emptiness validation performed by the
`generate_chain` adapters. -/
def api_stage_body (key : List Char) (response : List Char) : Except PyExc (List JValue) := do
  let result ← robust_json_parse response
  let recs ← jGetD result key (.arr [])
  pydanticListDict recs

/-- Generic `api.py` endpoint adapter as a function of the raw reply text
(the LLM invocation itself is the external collaborator). -/
def api_stage_parse (key : List Char) (response : List Char) : ApiStageResponse :=
  match api_stage_body key response with
  | .ok recs => ⟨true, recs, some response, none⟩
  | .error e => ⟨false, [], none, some (excMsg e)⟩

/-- Parsing core of `api.extract_features`. -/
def extract_features_parse (response : List Char) : ApiStageResponse :=
  api_stage_parse keyFeatures response

/-- Parsing core of `api.generate_test_points`. -/
def api_test_points_parse (response : List Char) : ApiStageResponse :=
  api_stage_parse keyTestPoints response

/-- Parsing core of `api.generate_test_cases`. -/
def api_test_cases_parse (response : List Char) : ApiStageResponse :=
  api_stage_parse keyTestCases response

/-- Result shape of `api.run_full_pipeline`: the stage-keyed accumulators
(`all_test_points` keyed by `str(i)`, `all_test_cases` keyed by
`f"{feature_idx},{tp_idx}"`) as insertion-ordered association lists. -/
structure FullPipelineResponse where
  success : Bool
  features : List JValue
  test_points : List (List Char × List JValue)
  test_cases : List (List Char × List JValue)
  error : Option (List Char)

/-- `features[:n]` guarded by Python truthiness of the cap
(`if request.max_features:` - both `None` and `0` leave the list whole). -/
def truthyTake (m : Option Nat) (l : List JValue) : List JValue :=
  match m with
  | some n => if n != 0 then l.take n else l
  | none => l

/-- Step 2 of the full pipeline: one test-point sub-call per feature index;
only successful sub-calls are recorded, keyed by `str(i)`.  The reply of the
`i`-th sub-call is abstracted as `tpR i`. -/
def pipelineTestPoints (tpR : Nat → List Char) (maxTP : Option Nat) (n : Nat) :
    List (List Char × List JValue) :=
  (List.range n).foldl
    (fun acc i =>
      if (api_test_points_parse (tpR i)).success
      then acc ++ [(natToString i, truthyTake maxTP (api_test_points_parse (tpR i)).records)]
      else acc)
    []

/-- Step 3 of the full pipeline: for each stored feature key (converted back
with `int(feature_idx)`) and each of its test points, one test-case sub-call;
only successful sub-calls are recorded, keyed by `f"{feature_idx},{tp_idx}"`. -/
def pipelineTestCases (tcR : Nat → Nat → List Char)
    (tps : List (List Char × List JValue)) : List (List Char × List JValue) :=
  tps.foldl
    (fun acc kv =>
      (List.range kv.2.length).foldl
        (fun acc2 j =>
          if (api_test_cases_parse (tcR (digitsToNat kv.1) j)).success
          then acc2 ++
            [(kv.1 ++ ',' :: natToString j,
              (api_test_cases_parse (tcR (digitsToNat kv.1) j)).records)]
          else acc2)
        acc)
    []

/-- Model of `api.run_full_pipeline` as a function of the sub-call replies:
`fReply` is the feature-extraction reply, `tpR i` the reply of the test-point
sub-call for feature index `i`, and `tcR i j` the reply of the test-case
sub-call for test point `j` of feature `i`. -/
def run_full_pipeline (fReply : List Char) (tpR : Nat → List Char)
    (tcR : Nat → Nat → List Char) (maxF maxTP : Option Nat) : FullPipelineResponse :=
  let fr := extract_features_parse fReply
  if !fr.success then
    { success := false, features := [], test_points := [], test_cases := []
      error := some ("Failed to extract features: ".toList ++ (fr.error.getD [])) }
  else
    let features := truthyTake maxF fr.records
    let tps := pipelineTestPoints tpR maxTP features.length
    let tcs := pipelineTestCases tcR tps
    { success := true, features := features, test_points := tps, test_cases := tcs
      error := none }

/-- Association-list lookup on the pipeline accumulators. -/
def alookup (k : List Char) : List (List Char × List JValue) → Option (List JValue)
  | [] => none
  | (k', v) :: rest => if k' = k then some v else alookup k rest

/-- The composite key `f"{feature_idx},{tp_idx}"`. -/
def pipeKey (i j : Nat) : List Char := natToString i ++ ',' :: natToString j

/-- Model of `model_util.generate_response_vllm_stream`'s accumulation loop:
each chunk carries `delta.content` (possibly `None`); a non-`None` delta is
appended to the running content, which is then yielded. -/
def vllmStreamGo (content : List Char) : List (Option (List Char)) → List (List Char)
  | [] => []
  | none :: rest => vllmStreamGo content rest
  | some c :: rest => (content ++ c) :: vllmStreamGo (content ++ c) rest

/-- The sequence of snapshots yielded by `generate_response_vllm_stream`. -/
def generate_response_vllm_stream (chunks : List (Option (List Char))) : List (List Char) :=
  vllmStreamGo [] chunks

/-- The progress display yielded per snapshot by
`generate_chain.generate_features_for_gradio_stream`. -/
def streamProgressDisplay (snap : List Char) :
    List Char × List Char × List (List Char) × List (List Char) :=
  ("🔄 Generating...\n\n**Raw output:**\n```\n".toList ++ snap ++ "\n```".toList,
    [], [], [])

/-- Model of the stream-consumption core of
`generate_chain.generate_features_for_gradio_stream` (with a nonempty PRD):
one progress yield per snapshot, then a single `parse_features` call on
`response_text`, which after the loop holds the last snapshot (or `""` when
the stream yielded nothing). -/
def generate_features_stream (chunks : List (Option (List Char))) :
    List (List Char × List Char × List (List Char) × List (List Char)) ×
      (List Char × List Char × JValue × List (List Char)) :=
  let snaps := generate_response_vllm_stream chunks
  let finalText := snaps.foldl (fun _ s => s) []
  (snaps.map streamProgressDisplay, parse_features finalText)

/-- Modelled from the spec: the decoded value of the longest still-parseable
`}`-terminated line prefix of a text - the comparison value named by the
truncation-recovery property.  Prefix lengths are tried from all lines down
to one line; a prefix qualifies when its right-stripped text ends with `}`
and it strictly parses. -/
def lineTruncationDown (ls : List (List Char)) : Nat → Option JValue
  | 0 => none
  | i + 1 =>
    let pref := joinNl (ls.take (i + 1))
    match (if (rstripPy pref).getLast? = some '}' then json_parse pref else none) with
    | some v => some v
    | none => lineTruncationDown ls i

/-- Modelled from the spec: the longest-prefix value over all line prefixes
of `text`. -/
def lineTruncationValue (text : List Char) : Option JValue :=
  lineTruncationDown (splitNl text) (splitNl text).length

/-! ### Lemmas and claim theorems -/

/-- A successful `splitAtFirst` decomposes the input, and the suffix
satisfies the predicate. -/
theorem splitAtFirst_eq {p : List Char → Bool} {l a b : List Char}
    (h : splitAtFirst p l = some (a, b)) : l = a ++ b ∧ p b = true := by
  induction l generalizing a with
  | nil => simp [splitAtFirst] at h
  | cons c rest ih =>
    simp only [splitAtFirst] at h
    by_cases hp : p (c :: rest)
    · simp only [hp, if_pos, Option.some.injEq, Prod.mk.injEq] at h
      obtain ⟨ha, hb⟩ := h
      subst ha; subst hb; exact ⟨rfl, hp⟩
    · rw [if_neg hp, Option.map_eq_some'] at h
      obtain ⟨⟨a', b'⟩, hpr, heq⟩ := h
      dsimp only at heq
      injection heq with ha hb
      subst ha; subst hb
      obtain ⟨h1, h2⟩ := ih hpr
      exact ⟨by simp [h1], h2⟩

/-- A two-sided strip is empty exactly when every character satisfies the
stripped class. -/
theorem stripBy_eq_nil_iff {p : Char → Bool} {l : List Char} :
    stripBy p l = [] ↔ ∀ c ∈ l, p c = true := by
  unfold stripBy rstripBy lstripBy
  rw [List.reverse_eq_nil_iff, List.dropWhile_eq_nil_iff]
  constructor
  · intro h c hc
    by_cases hmem : c ∈ l.dropWhile p
    · exact h c (by simpa using hmem)
    · have hsplit := List.takeWhile_append_dropWhile (p := p) (l := l)
      rw [← hsplit] at hc
      rcases List.mem_append.1 hc with h1 | h1
      · exact List.mem_takeWhile_imp h1
      · exact absurd h1 hmem
  · intro h c hc
    rw [List.mem_reverse] at hc
    exact h c ((List.dropWhile_sublist p).subset hc)

/-- A list with a character outside the stripped class does not strip to
nothing. -/
theorem stripBy_ne_nil {p : Char → Bool} {l : List Char} {c : Char}
    (hc : c ∈ l) (hp : p c = false) : stripBy p l ≠ [] := by
  intro h
  have := stripBy_eq_nil_iff.1 h c hc
  rw [hp] at this
  exact Bool.noConfusion this

/-- C7: for every input that is empty or whitespace-only, the recovery
parser fails fast with the distinct empty-input `ValueError` (and that error
differs from the strategy-exhaustion `json.JSONDecodeError`). -/
theorem claim7_empty_input (t : List Char) (h : ∀ c ∈ t, isPyWs c = true) :
    robust_json_parse t = .error (.valueError msgEmptyInput) ∧
      ∀ pv, (PyExc.valueError msgEmptyInput) ≠ PyExc.jsonDecodeError pv := by
  constructor
  · have hsp : stripPy t = [] := stripBy_eq_nil_iff.2 h
    unfold robust_json_parse
    rw [if_pos hsp]
  · intro pv hne
    exact PyExc.noConfusion hne

/-- C7 witness at the whitespace input `"   "`. -/
theorem claim7_empty_input_witness :
    robust_json_parse ("   ".toList) = .error (.valueError msgEmptyInput) :=
  (claim7_empty_input ("   ".toList) (by decide)).1

/-- C10: every failure of the recovery parser is a `ValueError` in Python's
class hierarchy: the empty-input failure is the plain `ValueError` and the
strategy-exhaustion failure is the `json.JSONDecodeError` (a `ValueError`
subclass) carrying the 200-character preview; no other exception class
escapes. -/
theorem claim10_failures_are_value_errors (t : List Char) (e : PyExc)
    (h : robust_json_parse t = .error e) :
    isValueErrorClass e = true ∧
      (e = .valueError msgEmptyInput ∨ e = .jsonDecodeError (t.take 200)) := by
  unfold robust_json_parse at h
  by_cases hs : stripPy t = []
  · rw [if_pos hs] at h
    injection h with h
    subst h
    exact ⟨rfl, Or.inl rfl⟩
  · rw [if_neg hs] at h
    rcases h1 : tryTagged (fences true t) with _ | v1
    · rw [h1] at h
      rcases h2 : tryUntagged (fences false t) with _ | v2
      · rw [h2] at h
        rcases h3 : strat345 t with _ | v3
        · rw [h3] at h
          rcases h4 : strat6 t with _ | v4
          · rw [h4] at h
            injection h with h
            subst h
            exact ⟨rfl, Or.inr rfl⟩
          · rw [h4] at h; exact Except.noConfusion h
        · rw [h3] at h; exact Except.noConfusion h
      · rw [h2] at h; exact Except.noConfusion h
    · rw [h1] at h; exact Except.noConfusion h

/-- C10 witness at the unparseable input `"no json here"`. -/
theorem claim10_failures_witness :
    isValueErrorClass (PyExc.jsonDecodeError (("no json here".toList).take 200)) = true :=
  (claim10_failures_are_value_errors ("no json here".toList) _ rfl).1

/-- The object-member parser only ever produces object values. -/
theorem parseMembers_obj :
    ∀ (fuel : Nat) (acc : List (List Char × JValue)) (l : List Char) (v : JValue)
      (r : List Char), parseMembers fuel acc l = some (v, r) → ∃ kvs, v = .obj kvs := by
  intro fuel
  induction fuel with
  | zero => intro acc l v r h; simp [parseMembers] at h
  | succ n ih =>
    intro acc l v r h
    unfold parseMembers at h
    split at h
    · split at h
      · exact absurd h (by simp)
      · split at h
        · split at h
          · exact absurd h (by simp)
          · split at h
            · exact ih _ _ _ _ h
            · simp only [Option.some.injEq, Prod.mk.injEq] at h
              exact ⟨_, h.1.symm⟩
            · exact absurd h (by simp)
        · exact absurd h (by simp)
    · exact absurd h (by simp)

/-- The object-body parser only ever produces object values. -/
theorem parseObjBody_obj {fuel : Nat} {l : List Char} {v : JValue} {r : List Char}
    (h : parseObjBody fuel l = some (v, r)) : ∃ kvs, v = .obj kvs := by
  cases fuel with
  | zero => simp [parseObjBody] at h
  | succ n =>
    unfold parseObjBody at h
    split at h
    · simp only [Option.some.injEq, Prod.mk.injEq] at h
      exact ⟨_, h.1.symm⟩
    · exact parseMembers_obj _ _ _ _ _ h

/-- The array-element parser only ever produces array values. -/
theorem parseElems_arr :
    ∀ (fuel : Nat) (acc : List JValue) (l : List Char) (v : JValue) (r : List Char),
      parseElems fuel acc l = some (v, r) → ∃ xs, v = .arr xs := by
  intro fuel
  induction fuel with
  | zero => intro acc l v r h; simp [parseElems] at h
  | succ n ih =>
    intro acc l v r h
    unfold parseElems at h
    split at h
    · exact absurd h (by simp)
    · split at h
      · exact ih _ _ _ _ h
      · simp only [Option.some.injEq, Prod.mk.injEq] at h
        exact ⟨_, h.1.symm⟩
      · exact absurd h (by simp)

/-- The array-body parser only ever produces array values. -/
theorem parseArrBody_arr {fuel : Nat} {l : List Char} {v : JValue} {r : List Char}
    (h : parseArrBody fuel l = some (v, r)) : ∃ xs, v = .arr xs := by
  cases fuel with
  | zero => simp [parseArrBody] at h
  | succ n =>
    unfold parseArrBody at h
    split at h
    · simp only [Option.some.injEq, Prod.mk.injEq] at h
      exact ⟨_, h.1.symm⟩
    · exact parseElems_arr _ _ _ _ _ h

/-- The value parser fails on the empty input. -/
theorem parseValueF_nil (fuel : Nat) : parseValueF fuel [] = none := by
  cases fuel with
  | zero => rfl
  | succ n => rfl

/-- A right strip is a prefix of its input. -/
theorem rstripBy_isPre (p : Char → Bool) (l : List Char) : rstripBy p l <+: l := by
  have h := List.reverse_prefix.2 (List.dropWhile_suffix (l := l.reverse) p)
  rwa [List.reverse_reverse] at h

/-- A right strip of a cons is empty or keeps the head. -/
theorem rstripBy_cons (p : Char → Bool) (c : Char) (l : List Char) :
    rstripBy p (c :: l) = [] ∨ ∃ ys, rstripBy p (c :: l) = c :: ys := by
  rcases ht : rstripBy p (c :: l) with _ | ⟨d, ys⟩
  · exact Or.inl rfl
  · right
    have h := rstripBy_isPre p (c :: l)
    rw [ht] at h
    obtain ⟨u, hu⟩ := h
    injection hu with h1 _
    exact ⟨ys, by rw [h1]⟩

/-- A strict parse of a text whose first character is `{` yields an object. -/
theorem json_parse_head_obj {l : List Char} {v : JValue} {rest : List Char}
    (hl : l = '{' :: rest) (h : json_parse l = some v) : ∃ kvs, v = .obj kvs := by
  subst hl
  unfold json_parse at h
  have hstrip : jstrip ('{' :: rest) = rstripBy isJsonWs ('{' :: rest) := by
    unfold jstrip stripBy lstripBy
    rw [List.dropWhile_cons_of_neg (by decide)]
  rcases rstripBy_cons isJsonWs '{' rest with hnil | ⟨ys, hys⟩
  · rw [hstrip, hnil, parseValueF_nil] at h
    exact absurd h (by simp)
  · rw [hstrip, hys] at h
    obtain ⟨m, hm⟩ : ∃ m, jsonFuel ('{' :: ys) = m + 1 := ⟨3 * ('{' :: ys).length + 7, by
      unfold jsonFuel; omega⟩
    rw [hm] at h
    rcases hpv : parseValueF (m + 1) ('{' :: ys) with _ | ⟨v', r'⟩
    · rw [hpv] at h; exact absurd h (by simp)
    · rw [hpv] at h
      unfold parseValueF at hpv
      rw [List.dropWhile_cons_of_neg (by decide)] at hpv
      dsimp only at hpv
      rw [if_pos rfl] at hpv
      rcases r' with _ | ⟨c0, r0⟩
      · dsimp only at h
        injection h with h
        subst h
        exact parseObjBody_obj hpv
      · exact absurd h (by simp)

/-- A found character is at the reported index. -/
theorem findChar_drop {c : Char} {l : List Char} {i : Nat}
    (h : findChar c l = some i) : ∃ rest, l.drop i = c :: rest := by
  induction l generalizing i with
  | nil => simp [findChar] at h
  | cons x xs ih =>
    simp only [findChar] at h
    by_cases hx : x = c
    · rw [if_pos hx] at h
      injection h with h
      subst h
      subst hx
      exact ⟨xs, rfl⟩
    · rw [if_neg hx, Option.map_eq_some'] at h
      obtain ⟨i', hi', hieq⟩ := h
      subst hieq
      obtain ⟨rest, hrest⟩ := ih hi'
      exact ⟨rest, by simpa using hrest⟩

/-- Taking at least one element preserves the head. -/
theorem take_cons_head {α : Type} {c : α} {l : List α} {n : Nat} :
    (c :: l).take (n + 1) = c :: l.take n := rfl

/-- The line-comment scrubber passes a non-slash head through. -/
theorem rmLineCommentsF_cons_ne {n : Nat} {c : Char} {r : List Char} (hc : c ≠ '/') :
    rmLineCommentsF (n + 1) (c :: r) = c :: rmLineCommentsF n r := by
  simp only [rmLineCommentsF]
  rw [if_neg (by simp [hc])]

/-- The block-comment scrubber passes a non-slash head through. -/
theorem rmBlockCommentsF_cons_ne {n : Nat} {c : Char} {r : List Char} (hc : c ≠ '/') :
    rmBlockCommentsF (n + 1) (c :: r) = c :: rmBlockCommentsF n r := by
  simp only [rmBlockCommentsF]
  rw [if_neg (by simp [hc])]

/-- The trailing-comma scrubber passes a non-comma head through. -/
theorem stripTrailingCommasF_cons_ne {n : Nat} {c : Char} {r : List Char} (hc : c ≠ ',') :
    stripTrailingCommasF (n + 1) (c :: r) = c :: stripTrailingCommasF n r := by
  simp only [stripTrailingCommasF]
  rw [if_neg hc]

/-- The repaired slice of strategy 4 keeps a leading `{`. -/
theorem repairs_keep_brace {r : List Char} :
    ∃ t, stripTrailingCommas (rmBlockComments (rmLineComments ('{' :: r))) = '{' :: t := by
  have h1 : ∃ a, rmLineComments ('{' :: r) = '{' :: a := by
    refine ⟨rmLineCommentsF r.length r, ?_⟩
    unfold rmLineComments
    exact rmLineCommentsF_cons_ne (by decide)
  obtain ⟨a, ha⟩ := h1
  have h2 : ∃ b, rmBlockComments ('{' :: a) = '{' :: b := by
    refine ⟨rmBlockCommentsF a.length a, ?_⟩
    unfold rmBlockComments
    exact rmBlockCommentsF_cons_ne (by decide)
  obtain ⟨b, hb⟩ := h2
  refine ⟨stripTrailingCommasF b.length b, ?_⟩
  rw [ha, hb]
  unfold stripTrailingCommas
  exact stripTrailingCommasF_cons_ne (by decide)

/-- A successful countdown of strategy 5 comes from a successful attempt at
some positive prefix length. -/
theorem strat5Down_some {ls : List (List Char)} {v : JValue} :
    ∀ {n : Nat}, strat5Down ls n = some v → ∃ i, strat5Attempt ls (i + 1) = some v := by
  intro n
  induction n with
  | zero => intro h; simp [strat5Down] at h
  | succ m ih =>
    intro h
    unfold strat5Down at h
    rcases ha : strat5Attempt ls (m + 1) with _ | v'
    · rw [ha] at h
      exact ih h
    · rw [ha] at h
      injection h with h
      subst h
      exact ⟨m, ha⟩

/-- Splitting a text that starts with a non-newline yields a first line with
the same head. -/
theorem splitNl_cons_ne {c : Char} {r : List Char} (hc : c ≠ '\n') :
    ∃ l0 ls0, splitNl (c :: r) = (c :: l0) :: ls0 := by
  unfold splitNl
  rw [if_neg hc]
  rcases splitNl r with _ | ⟨l, ls⟩
  · exact ⟨[], [], rfl⟩
  · exact ⟨l, ls, rfl⟩

/-- Joining lines whose first line is nonempty keeps its head. -/
theorem joinNl_cons_head {c : Char} {l0 : List Char} {ls : List (List Char)} :
    ∃ t, joinNl ((c :: l0) :: ls) = c :: t := by
  rcases ls with _ | ⟨l1, ls1⟩
  · exact ⟨l0, rfl⟩
  · exact ⟨l0 ++ '\n' :: joinNl (l1 :: ls1), rfl⟩

/-- A successful attempt of strategy 5 on the lines of a `{`-headed slice
parses a `{`-headed prefix, hence yields an object. -/
theorem strat5Attempt_obj {r : List Char} {i : Nat} {v : JValue}
    (h : strat5Attempt (splitNl ('{' :: r)) (i + 1) = some v) : ∃ kvs, v = .obj kvs := by
  obtain ⟨l0, ls0, hsp⟩ := splitNl_cons_ne (c := '{') (r := r) (by decide)
  rw [hsp] at h
  unfold strat5Attempt at h
  dsimp only at h
  rw [take_cons_head] at h
  obtain ⟨t, hj⟩ := @joinNl_cons_head '{' l0 (ls0.take i)
  rw [hj] at h
  split at h
  · exact json_parse_head_obj rfl h
  · exact absurd h (by simp)

/-- A strict parse of a text whose first character is `[` yields an array. -/
theorem json_parse_head_arr {l : List Char} {v : JValue} {rest : List Char}
    (hl : l = '[' :: rest) (h : json_parse l = some v) : ∃ xs, v = .arr xs := by
  subst hl
  unfold json_parse at h
  have hstrip : jstrip ('[' :: rest) = rstripBy isJsonWs ('[' :: rest) := by
    unfold jstrip stripBy lstripBy
    rw [List.dropWhile_cons_of_neg (by decide)]
  rcases rstripBy_cons isJsonWs '[' rest with hnil | ⟨ys, hys⟩
  · rw [hstrip, hnil, parseValueF_nil] at h
    exact absurd h (by simp)
  · rw [hstrip, hys] at h
    obtain ⟨m, hm⟩ : ∃ m, jsonFuel ('[' :: ys) = m + 1 := ⟨3 * ('[' :: ys).length + 7, by
      unfold jsonFuel; omega⟩
    rw [hm] at h
    rcases hpv : parseValueF (m + 1) ('[' :: ys) with _ | ⟨v', r'⟩
    · rw [hpv] at h; exact absurd h (by simp)
    · rw [hpv] at h
      unfold parseValueF at hpv
      rw [List.dropWhile_cons_of_neg (by decide)] at hpv
      dsimp only at hpv
      rw [if_neg (by decide), if_pos rfl] at hpv
      rcases r' with _ | ⟨c0, r0⟩
      · dsimp only at h
        injection h with h
        subst h
        exact parseArrBody_arr hpv
      · exact absurd h (by simp)

/-- Strategies 3-5 only ever produce objects: every candidate they parse
starts with `{`. -/
theorem strat345_shape {t : List Char} {v : JValue} (h : strat345 t = some v) :
    ∃ kvs, v = .obj kvs := by
  unfold strat345 at h
  rcases hfb : findChar '{' t with _ | fb <;> rw [hfb] at h
  · exact absurd h (by simp)
  · rcases hlb : rfindChar '}' t with _ | lb <;> rw [hlb] at h
    · exact absurd h (by simp)
    · dsimp only at h
      by_cases hlt : fb < lb
      · rw [if_pos hlt] at h
        obtain ⟨rest, hdrop⟩ := findChar_drop hfb
        obtain ⟨k, hk⟩ : ∃ k, lb + 1 - fb = k + 1 := ⟨lb - fb, by omega⟩
        have hjs : sliceIncl t fb lb = '{' :: rest.take k := by
          unfold sliceIncl
          rw [hdrop, hk, take_cons_head]
        rw [hjs] at h
        rcases hp1 : json_parse ('{' :: rest.take k) with _ | v1 <;> rw [hp1] at h
        · obtain ⟨t2, ht2⟩ := repairs_keep_brace (r := rest.take k)
          rw [ht2] at h
          rcases hp2 : json_parse ('{' :: t2) with _ | v2 <;> rw [hp2] at h
          · obtain ⟨i, hi⟩ := strat5Down_some h
            exact strat5Attempt_obj hi
          · injection h with h
            subst h
            exact json_parse_head_obj rfl hp2
        · injection h with h
          subst h
          exact json_parse_head_obj rfl hp1
      · rw [if_neg hlt] at h
        exact absurd h (by simp)

/-- Strategy 6 only ever produces arrays: its candidate starts with `[`. -/
theorem strat6_shape {t : List Char} {v : JValue} (h : strat6 t = some v) :
    ∃ xs, v = .arr xs := by
  unfold strat6 at h
  rcases hfb : findChar '[' t with _ | fb <;> rw [hfb] at h
  · exact absurd h (by simp)
  · rcases hlb : rfindChar ']' t with _ | lb <;> rw [hlb] at h
    · exact absurd h (by simp)
    · dsimp only at h
      by_cases hlt : fb < lb
      · rw [if_pos hlt] at h
        obtain ⟨rest, hdrop⟩ := findChar_drop hfb
        obtain ⟨k, hk⟩ : ∃ k, lb + 1 - fb = k + 1 := ⟨lb - fb, by omega⟩
        have hjs : sliceIncl t fb lb = '[' :: rest.take k := by
          unfold sliceIncl
          rw [hdrop, hk, take_cons_head]
        rw [hjs] at h
        exact json_parse_head_arr rfl h
      · rw [if_neg hlt] at h
        exact absurd h (by simp)

/-- An opening fence marker starts with a backtick. -/
theorem openerHead {tg : Bool} {b : List Char} (h : openerPred tg b = true) :
    ∃ t', b = btick :: t' := by
  rcases b with _ | ⟨a, b1⟩
  · cases tg <;> simp [openerPred, startsWithJsonTag, startsWith3Bt] at h
  · refine ⟨b1, ?_⟩
    have ha : a = btick := by
      cases tg
      · change startsWith3Bt (a :: b1) = true at h
        unfold startsWith3Bt at h
        rcases b1 with _ | ⟨c2, b2⟩
        · simp at h
        rcases b2 with _ | ⟨c3, b3⟩
        · simp at h
        simp only [Bool.and_eq_true, decide_eq_true_eq] at h
        exact h.1.1
      · change startsWithJsonTag (a :: b1) = true at h
        unfold startsWithJsonTag at h
        rcases b1 with _ | ⟨c2, b2⟩
        · simp at h
        rcases b2 with _ | ⟨c3, b3⟩
        · simp at h
        rcases b3 with _ | ⟨c4, b4⟩
        · simp at h
        rcases b4 with _ | ⟨c5, b5⟩
        · simp at h
        rcases b5 with _ | ⟨c6, b6⟩
        · simp at h
        rcases b6 with _ | ⟨c7, b7⟩
        · simp at h
        simp only [Bool.and_eq_true, decide_eq_true_eq] at h
        exact h.1.1.1.1.1.1
    rw [ha]

/-- A backtick-free text contains no fenced block. -/
theorem fences_nil_of_no_btick {tg : Bool} {l : List Char} (hb : btick ∉ l) :
    fences tg l = [] := by
  have hsp : splitAtFirst (openerPred tg) l = none := by
    rcases hs : splitAtFirst (openerPred tg) l with _ | ⟨a, b⟩
    · rfl
    · obtain ⟨hdec, hpred⟩ := splitAtFirst_eq hs
      obtain ⟨t', ht'⟩ := openerHead hpred
      exact absurd (by rw [hdec, ht']; simp : btick ∈ l) hb
  unfold fences
  rcases hn : l.length with _ | n
  · rfl
  · unfold fencesFromF
    rw [hsp]

/-- Strategy 2's guard ensures every value it returns is an object or an
array. -/
theorem tryUntagged_shape :
    ∀ {ms : List (List Char)} {v : JValue}, tryUntagged ms = some v →
      (∃ kvs, v = .obj kvs) ∨ (∃ xs, v = .arr xs) := by
  intro ms
  induction ms with
  | nil => intro v h; simp [tryUntagged] at h
  | cons m rest ih =>
    intro v h
    unfold tryUntagged at h
    rcases hs : stripPy m with _ | ⟨c, cs⟩
    · rw [hs] at h
      exact ih h
    · rw [hs] at h
      dsimp only at h
      by_cases hg : c = '{' ∨ c = '['
      · rw [if_pos hg] at h
        rcases hp : json_parse (c :: cs) with _ | v'
        · rw [hp] at h
          exact ih h
        · rw [hp] at h
          injection h with h
          subst h
          rcases hg with hg | hg
          · subst hg
            exact Or.inl (json_parse_head_obj rfl hp)
          · subst hg
            exact Or.inr (json_parse_head_arr rfl hp)
      · rw [if_neg hg] at h
        exact ih h

/-- `findChar` at a matching head. -/
theorem findChar_cons_self (c : Char) (xs : List Char) :
    findChar c (c :: xs) = some 0 := by
  simp [findChar]

/-- `findChar` misses a list without the character. -/
theorem findChar_none_of_not_mem {c : Char} {l : List Char} (h : c ∉ l) :
    findChar c l = none := by
  induction l with
  | nil => rfl
  | cons x xs ih =>
    simp only [findChar]
    rw [if_neg (by rintro rfl; exact h (List.mem_cons_self _ _)),
      ih (fun hm => h (List.mem_cons_of_mem _ hm))]
    rfl

/-- `findChar` skips a clean prefix and shifts the index. -/
theorem findChar_append_of_not_mem {c : Char} {x : List Char} (y : List Char)
    (h : c ∉ x) : findChar c (x ++ y) = (findChar c y).map (· + x.length) := by
  induction x with
  | nil => simp
  | cons a x' ih =>
    have ha : a ≠ c := by rintro rfl; exact h (List.mem_cons_self _ _)
    simp only [List.cons_append, findChar, List.append_eq]
    rw [if_neg ha, ih (fun hm => h (List.mem_cons_of_mem _ hm))]
    rcases findChar c y with _ | i
    · rfl
    · simp only [Option.map_some', List.length_cons]
      exact congrArg some (by omega)

/-- A list whose `getLast?` is `c` reverses to a `c`-headed list. -/
theorem reverse_cons_of_getLast {c : Char} {l : List Char}
    (h : l.getLast? = some c) : ∃ t, l.reverse = c :: t := by
  have hh : l.reverse.head? = some c := by rw [List.head?_reverse]; exact h
  rcases hr : l.reverse with _ | ⟨d, t⟩
  · rw [hr] at hh; exact absurd hh (by simp)
  · rw [hr] at hh
    simp only [List.head?_cons, Option.some.injEq] at hh
    subst hh
    exact ⟨t, rfl⟩

/-- Index of the first occurrence of `c` in `p ++ s ++ q` when `p` is clean
and `s` starts with `c`. -/
theorem findChar_embedded {c : Char} {p s : List Char} (q : List Char)
    (hp : c ∉ p) (hs : s.head? = some c) :
    findChar c (p ++ s ++ q) = some p.length := by
  rcases s with _ | ⟨d, s'⟩
  · exact absurd hs (by simp)
  · injection hs with hs
    subst hs
    rw [List.append_assoc, findChar_append_of_not_mem _ hp]
    simp [findChar_cons_self]

/-- Index of the last occurrence of `c` in `p ++ s ++ q` when `q` is clean
and `s` ends with `c`. -/
theorem rfindChar_embedded {c : Char} {s q : List Char} (p : List Char)
    (hq : c ∉ q) (hs : s.getLast? = some c) (hne : s ≠ []) :
    rfindChar c (p ++ s ++ q) = some (p.length + s.length - 1) := by
  obtain ⟨t, ht⟩ := reverse_cons_of_getLast hs
  have hq' : c ∉ q.reverse := fun hm => hq (List.mem_reverse.mp hm)
  have hrev : (p ++ s ++ q).reverse = q.reverse ++ (c :: (t ++ p.reverse)) := by
    rw [List.reverse_append, List.reverse_append, ht]
    simp [List.append_assoc]
  have h1 : findChar c ((p ++ s ++ q).reverse) = some q.length := by
    rw [hrev, findChar_append_of_not_mem (c :: (t ++ p.reverse)) hq',
      findChar_cons_self]
    simp
  have hlen : s.length ≥ 1 := by
    rcases s with _ | ⟨d, s'⟩
    · exact absurd rfl hne
    · simp
  unfold rfindChar
  rw [h1]
  simp only [Option.map_some', List.length_append]
  exact congrArg some (by omega)

/-- The inclusive slice from `|p|` to `|p| + |s| - 1` of `p ++ s ++ q` is
`s`. -/
theorem sliceIncl_embedded (p s q : List Char) (hs : s ≠ []) :
    sliceIncl (p ++ s ++ q) p.length (p.length + s.length - 1) = s := by
  unfold sliceIncl
  rw [List.append_assoc, List.drop_left]
  have hlen : s.length ≥ 1 := by
    rcases s with _ | ⟨d, s'⟩
    · exact absurd rfl hs
    · simp
  have harith : p.length + s.length - 1 + 1 - p.length = s.length := by omega
  rw [harith, List.take_left]

/-- C1 counterexample: the input `"[{\"a\":1}]"` is itself a well-formed JSON
array (embedded with empty prose), yet the recovery parser returns the inner
object `{"a":1}`: strategy 3 slices from the first `{` to the last `}` before
the array strategy is ever tried. -/
theorem claim1_counterexample :
    json_parse (("[\x7b\"a\":1\x7d]").toList) =
        some (.arr [.obj [("a".toList, .num 1)]]) ∧
      robust_json_parse (("[\x7b\"a\":1\x7d]").toList) =
        .ok (.obj [("a".toList, .num 1)]) ∧
      JValue.obj [("a".toList, .num 1)] ≠ .arr [.obj [("a".toList, .num 1)]] :=
  ⟨rfl, rfl, fun h => JValue.noConfusion h⟩

/-- C1 amended: an embedded well-formed JSON payload is recovered from
surrounding prose provided the prose contains no backticks, braces or
brackets, the payload contains no backtick, and - for an array payload - the
payload contains no `{` (otherwise the brace-slice strategy fires first and
may return an inner object instead, as the counterexample shows). -/
theorem claim1_amended (p s q : List Char) (v : JValue)
    (hparse : json_parse s = some v)
    (hpc : btick ∉ p ∧ '{' ∉ p ∧ '}' ∉ p ∧ '[' ∉ p ∧ ']' ∉ p)
    (hqc : btick ∉ q ∧ '{' ∉ q ∧ '}' ∉ q ∧ '[' ∉ q ∧ ']' ∉ q)
    (hsbt : btick ∉ s)
    (hshape : (s.head? = some '{' ∧ s.getLast? = some '}') ∨
      (s.head? = some '[' ∧ s.getLast? = some ']' ∧ '{' ∉ s)) :
    robust_json_parse (p ++ s ++ q) = .ok v := by
  obtain ⟨hp1, hp2, hp3, hp4, hp5⟩ := hpc
  obtain ⟨hq1, hq2, hq3, hq4, hq5⟩ := hqc
  have hbt : btick ∉ p ++ s ++ q := by
    intro hm
    rcases List.mem_append.1 hm with hm | hm
    · rcases List.mem_append.1 hm with hm | hm
      · exact hp1 hm
      · exact hsbt hm
    · exact hq1 hm
  have hfT : fences true (p ++ s ++ q) = [] := fences_nil_of_no_btick hbt
  have hfF : fences false (p ++ s ++ q) = [] := fences_nil_of_no_btick hbt
  rcases hshape with ⟨hhead, hlast⟩ | ⟨hhead, hlast, hnob⟩
  · -- object payload
    obtain ⟨c0, s0, hs0⟩ : ∃ c0 s0, s = c0 :: s0 := by
      rcases s with _ | ⟨c0, s0⟩
      · exact absurd hhead (by simp)
      · exact ⟨c0, s0, rfl⟩
    have hc0 : c0 = '{' := by
      rw [hs0] at hhead
      simpa using hhead
    have hne : s ≠ [] := by rw [hs0]; simp
    have hlen2 : s.length ≥ 2 := by
      rcases s0 with _ | ⟨c1, s1⟩
      · rw [hs0] at hlast
        simp only [List.getLast?_singleton, Option.some.injEq] at hlast
        rw [hc0] at hlast
        exact absurd hlast (by decide)
      · rw [hs0]; simp
    have hmem : '{' ∈ p ++ s ++ q :=
      List.mem_append.2 (Or.inl (List.mem_append.2 (Or.inr (by rw [hs0, hc0]; simp))))
    have hstrip : stripPy (p ++ s ++ q) ≠ [] := stripBy_ne_nil hmem (by decide)
    have hfb : findChar '{' (p ++ s ++ q) = some p.length :=
      findChar_embedded q hp2 (by rw [hs0, hc0]; simp)
    have hlb : rfindChar '}' (p ++ s ++ q) = some (p.length + s.length - 1) :=
      rfindChar_embedded p hq3 hlast hne
    have hlt : p.length < p.length + s.length - 1 := by omega
    have hsl : sliceIncl (p ++ s ++ q) p.length (p.length + s.length - 1) = s :=
      sliceIncl_embedded p s q hne
    have h345 : strat345 (p ++ s ++ q) = some v := by
      unfold strat345
      rw [hfb, hlb]
      dsimp only
      rw [if_pos hlt, hsl, hparse]
    unfold robust_json_parse
    rw [if_neg hstrip, hfT, hfF]
    simp only [tryTagged, tryUntagged]
    rw [h345]
  · -- array payload, no brace anywhere
    obtain ⟨c0, s0, hs0⟩ : ∃ c0 s0, s = c0 :: s0 := by
      rcases s with _ | ⟨c0, s0⟩
      · exact absurd hhead (by simp)
      · exact ⟨c0, s0, rfl⟩
    have hc0 : c0 = '[' := by
      rw [hs0] at hhead
      simpa using hhead
    have hne : s ≠ [] := by rw [hs0]; simp
    have hlen2 : s.length ≥ 2 := by
      rcases s0 with _ | ⟨c1, s1⟩
      · rw [hs0] at hlast
        simp only [List.getLast?_singleton, Option.some.injEq] at hlast
        rw [hc0] at hlast
        exact absurd hlast (by decide)
      · rw [hs0]; simp
    have hmem : '[' ∈ p ++ s ++ q :=
      List.mem_append.2 (Or.inl (List.mem_append.2 (Or.inr (by rw [hs0, hc0]; simp))))
    have hstrip : stripPy (p ++ s ++ q) ≠ [] := stripBy_ne_nil hmem (by decide)
    have hfbnone : findChar '{' (p ++ s ++ q) = none := by
      refine findChar_none_of_not_mem ?_
      intro hm
      rcases List.mem_append.1 hm with hm | hm
      · rcases List.mem_append.1 hm with hm | hm
        · exact hp2 hm
        · exact hnob hm
      · exact hq2 hm
    have h345 : strat345 (p ++ s ++ q) = none := by
      unfold strat345
      rw [hfbnone]
    have hfb : findChar '[' (p ++ s ++ q) = some p.length :=
      findChar_embedded q hp4 (by rw [hs0, hc0]; simp)
    have hlb : rfindChar ']' (p ++ s ++ q) = some (p.length + s.length - 1) :=
      rfindChar_embedded p hq5 hlast hne
    have hlt : p.length < p.length + s.length - 1 := by omega
    have hsl : sliceIncl (p ++ s ++ q) p.length (p.length + s.length - 1) = s :=
      sliceIncl_embedded p s q hne
    have h6 : strat6 (p ++ s ++ q) = some v := by
      unfold strat6
      rw [hfb, hlb]
      dsimp only
      rw [if_pos hlt, hsl, hparse]
    unfold robust_json_parse
    rw [if_neg hstrip, hfT, hfF]
    simp only [tryTagged, tryUntagged]
    rw [h345, h6]

/-- C1 amended witness: the object `{"x":5}` surrounded by prose. -/
theorem claim1_amended_witness :
    json_parse (("\x7b\"x\":5\x7d").toList) = some (.obj [("x".toList, .num 5)]) ∧
      robust_json_parse (("Sure: ").toList ++ ("\x7b\"x\":5\x7d").toList
          ++ (" hope it helps").toList) =
        .ok (.obj [("x".toList, .num 5)]) :=
  ⟨rfl, claim1_amended (("Sure: ").toList) (("\x7b\"x\":5\x7d").toList)
    ((" hope it helps").toList) (.obj [("x".toList, .num 5)]) rfl
    (by refine ⟨?_, ?_, ?_, ?_, ?_⟩ <;> decide)
    (by refine ⟨?_, ?_, ?_, ?_, ?_⟩ <;> decide)
    (by decide)
    (Or.inl (by refine ⟨?_, ?_⟩ <;> rfl))⟩

/-- Scanning past a backtick-free prefix, the first match of a fence opener
is found exactly where the opener starts. -/
theorem splitAtFirst_clean (pred : List Char → Bool)
    (hheadP : ∀ b, pred b = true → b.head? = some btick) :
    ∀ (p X : List Char), btick ∉ p → pred X = true →
      splitAtFirst pred (p ++ X) = some (p, X) := by
  intro p
  induction p with
  | nil =>
    intro X hp hX
    rcases X with _ | ⟨c, X'⟩
    · have := hheadP [] hX
      exact absurd this (by simp)
    · rw [List.nil_append]
      unfold splitAtFirst
      rw [if_pos hX]
  | cons a p' ih =>
    intro X hp hX
    have ha : a ≠ btick := by
      rintro rfl
      exact hp (List.mem_cons_self _ _)
    have hp' : btick ∉ p' := fun hm => hp (List.mem_cons_of_mem _ hm)
    have hnot : pred (a :: (p' ++ X)) ≠ true := by
      intro hpr
      have := hheadP _ hpr
      simp only [List.head?_cons, Option.some.injEq] at this
      exact ha this
    rw [List.cons_append]
    unfold splitAtFirst
    rw [if_neg hnot, ih X hp' hX]
    rfl

/-- Heads of tagged-fence openers are backticks (wrapper around
`openerHead`). -/
theorem openerPred_head {tg : Bool} (b : List Char) (hb : openerPred tg b = true) :
    b.head? = some btick := by
  obtain ⟨t', ht'⟩ := openerHead hb
  rw [ht']
  rfl

/-- One-step equation of the fence scanner at positive fuel. -/
theorem fencesFromF_succ (tg : Bool) (k : Nat) (l : List Char) :
    fencesFromF tg (k + 1) l =
      match splitAtFirst (openerPred tg) l with
      | none => []
      | some (_, rest) =>
        match splitAtFirst startsWith3Bt (rest.drop (openerLen tg)) with
        | none => []
        | some (cap, closeRest) => cap :: fencesFromF tg k (closeRest.drop 3) := rfl

/-- The tagged-fence scan of `prefixText ++ "```json" ++ payload ++ "```" ++
suffix` captures exactly `payload` first, when the prefix and the payload are
backtick-free. -/
theorem fences_decomp (p payload suffix : List Char)
    (hp : btick ∉ p) (hpay : btick ∉ payload) :
    ∃ tl,
      fences true
        (p ++ ([btick, btick, btick, 'j', 's', 'o', 'n'] ++
          (payload ++ ([btick, btick, btick] ++ suffix)))) = payload :: tl := by
  have hX : openerPred true
      ([btick, btick, btick, 'j', 's', 'o', 'n'] ++
        (payload ++ ([btick, btick, btick] ++ suffix))) = true := rfl
  have h1 := splitAtFirst_clean (openerPred true) (fun b hb => openerPred_head b hb)
    p _ hp hX
  have hcl : startsWith3Bt ([btick, btick, btick] ++ suffix) = true := rfl
  have h2 := splitAtFirst_clean startsWith3Bt
    (fun b hb => @openerPred_head false b hb) payload _ hpay hcl
  have hdrop : ([btick, btick, btick, 'j', 's', 'o', 'n'] ++
      (payload ++ ([btick, btick, btick] ++ suffix))).drop 7 =
      payload ++ ([btick, btick, btick] ++ suffix) := by
    have hd := List.drop_left [btick, btick, btick, 'j', 's', 'o', 'n']
      (payload ++ ([btick, btick, btick] ++ suffix))
    simpa using hd
  have hlenpos : ∃ k, (p ++ ([btick, btick, btick, 'j', 's', 'o', 'n'] ++
      (payload ++ ([btick, btick, btick] ++ suffix)))).length = k + 1 := by
    refine ⟨(p ++ ([btick, btick, btick, 'j', 's', 'o', 'n'] ++
      (payload ++ ([btick, btick, btick] ++ suffix)))).length - 1, ?_⟩
    simp only [List.length_append, List.length_cons, List.length_nil]
    omega
  obtain ⟨k, hk⟩ := hlenpos
  refine ⟨fencesFromF true k (([btick, btick, btick] ++ suffix).drop 3), ?_⟩
  unfold fences
  rw [hk, fencesFromF_succ, h1]
  dsimp only [openerLen]
  rw [hdrop, h2]

/-- C6 counterexample: with a prefix that itself contains a complete valid
fenced block, the parser returns the prefix's payload, not the designated
block's payload - the claim's first sentence fails for arbitrary prefixes. -/
theorem claim6_counterexample :
    robust_json_parse
        (("```json\n\x7b\"a\":1\x7d\n``` ```json\n\x7b\"b\":2\x7d\n```").toList) =
      .ok (.obj [("a".toList, .num 1)]) ∧
      json_parse (("\x7b\"b\":2\x7d").toList) = some (.obj [("b".toList, .num 2)]) ∧
      JValue.obj [("a".toList, .num 1)] ≠ .obj [("b".toList, .num 2)] :=
  ⟨rfl, rfl, by simp⟩

/-- C6 amended: for a backtick-free prefix and a backtick-free fenced payload
whose stripped text is valid JSON, the recovery parser returns exactly the
decoded payload, ignoring the prefix and the whole suffix - in particular any
further fenced blocks in the suffix are ignored, so the first parseable block
wins. -/
theorem claim6_amended (p payload suffix : List Char) (v : JValue)
    (hp : btick ∉ p) (hpay : btick ∉ payload)
    (hparse : json_parse (stripPy payload) = some v) :
    robust_json_parse
      (p ++ ([btick, btick, btick, 'j', 's', 'o', 'n'] ++
        (payload ++ ([btick, btick, btick] ++ suffix)))) = .ok v := by
  obtain ⟨tl, htl⟩ := fences_decomp p payload suffix hp hpay
  have hmem : btick ∈ p ++ ([btick, btick, btick, 'j', 's', 'o', 'n'] ++
      (payload ++ ([btick, btick, btick] ++ suffix))) := by simp
  have hstrip : stripPy (p ++ ([btick, btick, btick, 'j', 's', 'o', 'n'] ++
      (payload ++ ([btick, btick, btick] ++ suffix)))) ≠ [] :=
    stripBy_ne_nil hmem (by decide)
  unfold robust_json_parse
  rw [if_neg hstrip, htl]
  simp only [tryTagged]
  rw [hparse]

/-- C6 amended witness: a prose prefix, the payload `{"k":1}`, and a suffix
containing a second valid fenced block that is ignored. -/
theorem claim6_amended_witness :
    json_parse (stripPy (("\n\x7b\"k\":1\x7d\n").toList)) =
        some (.obj [("k".toList, .num 1)]) ∧
      robust_json_parse
        (("Intro: ").toList ++ ([btick, btick, btick, 'j', 's', 'o', 'n'] ++
          (("\n\x7b\"k\":1\x7d\n").toList ++ ([btick, btick, btick] ++
            ((" and ```json\n\x7b\"z\":9\x7d\n``` later").toList))))) =
        .ok (.obj [("k".toList, .num 1)]) :=
  ⟨rfl, claim6_amended (("Intro: ").toList) (("\n\x7b\"k\":1\x7d\n").toList)
    ((" and ```json\n\x7b\"z\":9\x7d\n``` later").toList)
    (.obj [("k".toList, .num 1)]) (by decide) (by decide) rfl⟩

/-- C3 counterexample: on input `"```json\n42\n```"` the recovery parser
returns the scalar `42` via the tagged-fence strategy, so its result is
neither a mapping nor an array. -/
theorem claim3_counterexample :
    robust_json_parse ("```json\n42\n```".toList) = .ok (.num 42) ∧
      (∀ kvs, JValue.num 42 ≠ .obj kvs) ∧ (∀ xs, JValue.num 42 ≠ .arr xs) :=
  ⟨rfl, fun _ h => JValue.noConfusion h, fun _ h => JValue.noConfusion h⟩

/-- C3 amended: when the input contains no ```` ```json ````-tagged fence
(whose payload is returned verbatim and may be a scalar), every value the
recovery parser returns is a mapping or an array. -/
theorem claim3_amended (t : List Char) (v : JValue)
    (hnofence : fences true t = [])
    (h : robust_json_parse t = .ok v) :
    (∃ kvs, v = .obj kvs) ∨ (∃ xs, v = .arr xs) := by
  unfold robust_json_parse at h
  by_cases hs : stripPy t = []
  · rw [if_pos hs] at h
    exact absurd h (by simp)
  · rw [if_neg hs, hnofence] at h
    simp only [tryTagged] at h
    rcases h2 : tryUntagged (fences false t) with _ | v2 <;> rw [h2] at h
    · rcases h3 : strat345 t with _ | v3 <;> rw [h3] at h
      · rcases h4 : strat6 t with _ | v4 <;> rw [h4] at h
        · exact absurd h (by simp)
        · injection h with h
          subst h
          exact Or.inr (strat6_shape h4)
      · injection h with h
        subst h
        exact Or.inl (strat345_shape h3)
    · injection h with h
      subst h
      exact tryUntagged_shape h2

/-- C3 amended witness at the array input `"[1, 2]"`. -/
theorem claim3_amended_witness :
    fences true ("[1, 2]".toList) = [] ∧
      ((∃ kvs, (JValue.arr [.num 1, .num 2]) = .obj kvs) ∨
        (∃ xs, (JValue.arr [.num 1, .num 2]) = .arr xs)) :=
  ⟨rfl, claim3_amended ("[1, 2]".toList) (.arr [.num 1, .num 2]) rfl rfl⟩

/-- Characters of the whitespace class are not commas. -/
theorem ws_ne_comma {c : Char} (h : isPyWs c = true) : c ≠ ',' := by
  rintro rfl
  exact absurd h (by decide)

/-- Closing braces/brackets are not commas. -/
theorem closer_ne_comma {c : Char} (h : closerChar c = true) : c ≠ ',' := by
  rintro rfl
  exact absurd h (by decide)

/-- Closing braces/brackets are not whitespace. -/
theorem closer_not_ws {c : Char} (h : closerChar c = true) : isPyWs c = false := by
  unfold closerChar at h
  rcases Bool.or_eq_true_iff.1 h with h1 | h1
  · rw [show c = '}' by simpa using h1]; rfl
  · rw [show c = ']' by simpa using h1]; rfl

/-- `dropWhile` jumps over an all-class run up to the first stopper. -/
theorem dropWhile_ws_all {p : Char → Bool} {u : List Char} {d : Char} (x : List Char)
    (hu : ∀ c ∈ u, p c = true) (hd : p d = false) :
    (u ++ d :: x).dropWhile p = d :: x := by
  induction u with
  | nil => simp [List.dropWhile_cons_of_neg, hd]
  | cons a u' ih =>
    rw [List.cons_append, List.dropWhile_cons_of_pos (hu a (List.mem_cons_self _ _))]
    exact ih (fun c hc => hu c (List.mem_cons_of_mem _ hc))

/-- `takeWhile` keeps exactly an all-class run up to the first stopper. -/
theorem takeWhile_ws_all {p : Char → Bool} {u : List Char} {d : Char} (x : List Char)
    (hu : ∀ c ∈ u, p c = true) (hd : p d = false) :
    (u ++ d :: x).takeWhile p = u := by
  induction u with
  | nil => simp [List.takeWhile_cons_of_neg, hd]
  | cons a u' ih =>
    rw [List.cons_append, List.takeWhile_cons_of_pos (hu a (List.mem_cons_self _ _))]
    rw [ih (fun c hc => hu c (List.mem_cons_of_mem _ hc))]

/-- `dropWhile` distributes over an append whose left part is not fully
dropped. -/
theorem dropWhile_append_ne {p : Char → Bool} {A : List Char} (X : List Char)
    (h : A.dropWhile p ≠ []) : (A ++ X).dropWhile p = A.dropWhile p ++ X := by
  induction A with
  | nil => exact absurd rfl h
  | cons a A' ih =>
    by_cases hp : p a
    · rw [List.cons_append, List.dropWhile_cons_of_pos hp, List.dropWhile_cons_of_pos hp]
      exact ih (by rwa [List.dropWhile_cons_of_pos hp] at h)
    · have hpa : ¬ p a = true := by simpa using hp
      rw [List.cons_append, List.dropWhile_cons_of_neg hpa,
        List.dropWhile_cons_of_neg hpa, List.cons_append]

/-- `dropWhile` skips a fully-dropped left part of an append. -/
theorem dropWhile_append_nil {p : Char → Bool} {A : List Char} (X : List Char)
    (h : A.dropWhile p = []) : (A ++ X).dropWhile p = X.dropWhile p := by
  induction A with
  | nil => rfl
  | cons a A' ih =>
    have hp : p a = true := by
      by_contra hq
      rw [List.dropWhile_cons_of_neg (by simpa using hq)] at h
      exact List.noConfusion h
    rw [List.cons_append, List.dropWhile_cons_of_pos hp]
    exact ih (by rwa [List.dropWhile_cons_of_pos hp] at h)

/-- The trailing-comma scrubber never lengthens its input. -/
theorem scanTCF_len : ∀ (f : Nat) (l : List Char),
    (stripTrailingCommasF f l).length ≤ l.length := by
  intro f
  induction f with
  | zero => intro l; simp [stripTrailingCommasF]
  | succ g ih =>
    intro l
    rcases l with _ | ⟨c, rest⟩
    · simp [stripTrailingCommasF]
    · unfold stripTrailingCommasF
      by_cases hc : c = ','
      · rw [if_pos hc]
        rcases hd : rest.dropWhile isPyWs with _ | ⟨d, r2⟩
        · dsimp only
          simp only [List.length_cons]
          have := ih rest
          omega
        · dsimp only
          by_cases hcl : closerChar d
          · rw [if_pos hcl]
            have h1 := ih r2
            have h2 : (rest.takeWhile isPyWs).length + (d :: r2).length = rest.length := by
              have := congrArg List.length (List.takeWhile_append_dropWhile (p := isPyWs) (l := rest))
              rw [hd] at this
              simp only [List.length_append] at this
              omega
            simp only [List.length_append, List.length_cons] at *
            omega
          · rw [if_neg hcl]
            simp only [List.length_cons]
            have := ih rest
            omega
      · rw [if_neg hc]
        simp only [List.length_cons]
        have := ih rest
        omega

/-- The trailing-comma scrubber is insensitive to the fuel as long as the
fuel covers the input length. -/
theorem scanTCF_fuel : ∀ (f1 : Nat) {l : List Char} {f2 : Nat},
    l.length ≤ f1 → l.length ≤ f2 →
    stripTrailingCommasF f1 l = stripTrailingCommasF f2 l := by
  intro f1
  induction f1 with
  | zero =>
    intro l f2 h1 _
    have : l = [] := List.length_eq_zero.1 (by omega)
    subst this
    rcases f2 with _ | g2 <;> rfl
  | succ g1 ih =>
    intro l f2 h1 h2
    rcases l with _ | ⟨c, rest⟩
    · rcases f2 with _ | g2 <;> rfl
    · rcases f2 with _ | g2
      · simp at h2
      · unfold stripTrailingCommasF
        by_cases hc : c = ','
        · rw [if_pos hc, if_pos hc]
          rcases hd : rest.dropWhile isPyWs with _ | ⟨d, r2⟩
          · dsimp only
            simp only [List.length_cons] at h1 h2
            rw [@ih rest g2 (by omega) (by omega)]
          · dsimp only
            by_cases hcl : closerChar d
            · rw [if_pos hcl, if_pos hcl]
              have hlen : r2.length < rest.length := by
                have := congrArg List.length
                  (List.takeWhile_append_dropWhile (p := isPyWs) (l := rest))
                rw [hd] at this
                simp only [List.length_append, List.length_cons] at this
                omega
              simp only [List.length_cons] at h1 h2
              rw [@ih r2 g2 (by omega) (by omega)]
            · rw [if_neg hcl, if_neg hcl]
              simp only [List.length_cons] at h1 h2
              rw [@ih rest g2 (by omega) (by omega)]
        · rw [if_neg hc, if_neg hc]
          simp only [List.length_cons] at h1 h2
          rw [@ih rest g2 (by omega) (by omega)]

/-- The trailing-comma scrubber copies a comma-free run unchanged. -/
theorem scanTCF_walk : ∀ (u : List Char) {x : List Char} {f : Nat},
    (∀ c ∈ u, c ≠ ',') → u.length + x.length ≤ f →
    stripTrailingCommasF f (u ++ x) = u ++ stripTrailingCommasF (f - u.length) x := by
  intro u
  induction u with
  | nil => intro x f _ _; simp
  | cons a u' ih =>
    intro x f hu hf
    simp only [List.length_cons] at hf
    obtain ⟨g, rfl⟩ : ∃ g, f = g + 1 := ⟨f - 1, by omega⟩
    rw [List.cons_append,
      stripTrailingCommasF_cons_ne (hu a (List.mem_cons_self _ _)),
      ih (fun c hc => hu c (List.mem_cons_of_mem _ hc)) (by omega),
      List.cons_append, List.length_cons, Nat.succ_sub_succ]

/-- Scrubbing an inserted trailing comma: if the comma-free text `A ++ w ++
cl :: r` (whitespace `w`, closer `cl`) is a fixpoint of the trailing-comma
scrubber, then the text with a comma inserted in front of the
whitespace-closer run scrubs back to the comma-free text (fueled form). -/
theorem scanTCF_insert : ∀ (A : List Char) {w r : List Char} {cl : Char} {f1 f2 : Nat},
    (∀ c ∈ w, isPyWs c = true) → closerChar cl = true →
    (A ++ (w ++ cl :: r)).length ≤ f1 →
    (A ++ ',' :: (w ++ cl :: r)).length ≤ f2 →
    stripTrailingCommasF f1 (A ++ (w ++ cl :: r)) = A ++ (w ++ cl :: r) →
    stripTrailingCommasF f2 (A ++ ',' :: (w ++ cl :: r)) = A ++ (w ++ cl :: r) := by
  intro A
  induction A with
  | nil =>
    intro w r cl f1 f2 hw hcl h1 h2 hfix
    simp only [List.nil_append] at h1 h2 hfix ⊢
    simp only [List.length_cons, List.length_append] at h1 h2
    obtain ⟨g2, rfl⟩ : ∃ g, f2 = g + 1 := ⟨f2 - 1, by omega⟩
    have hdw : (w ++ cl :: r).dropWhile isPyWs = cl :: r :=
      dropWhile_ws_all r hw (closer_not_ws hcl)
    have htw : (w ++ cl :: r).takeWhile isPyWs = w :=
      takeWhile_ws_all r hw (closer_not_ws hcl)
    have hwalk := scanTCF_walk (w ++ [cl]) (x := r) (f := f1)
      (fun c hc => by
        rcases List.mem_append.1 hc with hc | hc
        · exact ws_ne_comma (hw c hc)
        · simp only [List.mem_singleton] at hc
          subst hc
          exact closer_ne_comma hcl)
      (by simp only [List.length_append, List.length_cons, List.length_nil]; omega)
    rw [show (w ++ [cl]) ++ r = w ++ cl :: r by simp] at hwalk
    rw [hwalk] at hfix
    rw [show w ++ cl :: r = (w ++ [cl]) ++ r by simp] at hfix
    have hr := List.append_cancel_left hfix
    have hfr : stripTrailingCommasF g2 r = r := by
      rw [@scanTCF_fuel g2 r (f1 - (w ++ [cl]).length) (by omega)
        (by simp only [List.length_append, List.length_cons, List.length_nil]; omega)]
      exact hr
    conv_lhs => unfold stripTrailingCommasF
    rw [if_pos rfl, hdw]
    dsimp only
    rw [if_pos hcl, htw, hfr]
  | cons a A' ih =>
    intro w r cl f1 f2 hw hcl h1 h2 hfix
    simp only [List.cons_append] at h1 h2 hfix ⊢
    simp only [List.length_cons, List.length_append] at h1 h2
    obtain ⟨g1, rfl⟩ : ∃ g, f1 = g + 1 := ⟨f1 - 1, by omega⟩
    obtain ⟨g2, rfl⟩ : ∃ g, f2 = g + 1 := ⟨f2 - 1, by omega⟩
    by_cases ha : a = ','
    · subst ha
      rcases hd : (A' ++ (w ++ cl :: r)).dropWhile isPyWs with _ | ⟨e, r2⟩
      · exfalso
        have hall := List.dropWhile_eq_nil_iff.1 hd
        have hclws := hall cl (by simp)
        rw [closer_not_ws hcl] at hclws
        exact Bool.noConfusion hclws
      · by_cases hce : closerChar e = true
        · exfalso
          have hstep : stripTrailingCommasF (g1 + 1) (',' :: (A' ++ (w ++ cl :: r))) =
              (A' ++ (w ++ cl :: r)).takeWhile isPyWs ++
                e :: stripTrailingCommasF g1 r2 := by
            conv_lhs => unfold stripTrailingCommasF
            rw [if_pos rfl, hd]
            dsimp only
            rw [if_pos hce]
          rw [hstep] at hfix
          have hlen1 := scanTCF_len g1 r2
          have hsplit := congrArg List.length
            (List.takeWhile_append_dropWhile (p := isPyWs) (l := A' ++ (w ++ cl :: r)))
          rw [hd] at hsplit
          have hlfix := congrArg List.length hfix
          simp only [List.length_append, List.length_cons] at hsplit hlfix
          omega
        · have hstepS : stripTrailingCommasF (g1 + 1) (',' :: (A' ++ (w ++ cl :: r))) =
              ',' :: stripTrailingCommasF g1 (A' ++ (w ++ cl :: r)) := by
            conv_lhs => unfold stripTrailingCommasF
            rw [if_pos rfl, hd]
            dsimp only
            rw [if_neg hce]
          rw [hstepS] at hfix
          have hfix2 : stripTrailingCommasF g1 (A' ++ (w ++ cl :: r)) =
              A' ++ (w ++ cl :: r) := by
            injection hfix
          have hA'ne : A'.dropWhile isPyWs ≠ [] := by
            intro hnil
            have hx := dropWhile_append_nil (w ++ cl :: r) hnil
            rw [hd, dropWhile_ws_all r hw (closer_not_ws hcl)] at hx
            injection hx with hx1 _
            rw [hx1] at hce
            exact hce hcl
          obtain ⟨A2, hA2⟩ : ∃ A2, A'.dropWhile isPyWs = e :: A2 := by
            have hds := dropWhile_append_ne (w ++ cl :: r) hA'ne
            rw [hd] at hds
            rcases hx : A'.dropWhile isPyWs with _ | ⟨e2, A2⟩
            · exact absurd hx hA'ne
            · rw [hx, List.cons_append] at hds
              injection hds with hh _
              subst hh
              exact ⟨A2, rfl⟩
          have hstepT : stripTrailingCommasF (g2 + 1)
              (',' :: (A' ++ ',' :: (w ++ cl :: r))) =
              ',' :: stripTrailingCommasF g2 (A' ++ ',' :: (w ++ cl :: r)) := by
            conv_lhs => unfold stripTrailingCommasF
            rw [if_pos rfl, dropWhile_append_ne _ hA'ne, hA2, List.cons_append]
            dsimp only
            rw [if_neg hce]
          rw [hstepT,
            ih hw hcl (by simp only [List.length_append, List.length_cons]; omega)
              (by simp only [List.length_append, List.length_cons]; omega) hfix2]
    · rw [stripTrailingCommasF_cons_ne ha] at hfix
      have hfix2 : stripTrailingCommasF g1 (A' ++ (w ++ cl :: r)) =
          A' ++ (w ++ cl :: r) := by
        injection hfix
      rw [stripTrailingCommasF_cons_ne ha,
        ih hw hcl (by simp only [List.length_append, List.length_cons]; omega)
          (by simp only [List.length_append, List.length_cons]; omega) hfix2]

/-- Unfueled wrapper of `scanTCF_insert` for `stripTrailingCommas`. -/
theorem stripTrailingCommas_insert (A w r : List Char) (cl : Char)
    (hw : ∀ c ∈ w, isPyWs c = true) (hcl : closerChar cl = true)
    (hfix : stripTrailingCommas (A ++ (w ++ cl :: r)) = A ++ (w ++ cl :: r)) :
    stripTrailingCommas (A ++ ',' :: (w ++ cl :: r)) = A ++ (w ++ cl :: r) := by
  unfold stripTrailingCommas at hfix ⊢
  exact scanTCF_insert A hw hcl (le_refl _) (le_refl _) hfix

/-- The line-comment scrubber is the identity on texts without `//`. -/
theorem rmLineCommentsF_id : ∀ (fuel : Nat) {l : List Char},
    hasSub ['/', '/'] l = false → rmLineCommentsF fuel l = l := by
  intro fuel
  induction fuel with
  | zero => intro l _; rfl
  | succ g ih =>
    intro l h
    rcases l with _ | ⟨c, rest⟩
    · rfl
    · simp only [hasSub, Bool.or_eq_false_iff] at h
      obtain ⟨h1, h2⟩ := h
      have hcond : ¬(c = '/' ∧ rest.head? = some '/') := by
        rintro ⟨rfl, hh⟩
        rcases rest with _ | ⟨d, rest2⟩
        · simp at hh
        · simp only [List.head?_cons, Option.some.injEq] at hh
          subst hh
          simp [List.isPrefixOf] at h1
      simp only [rmLineCommentsF]
      rw [if_neg hcond, ih h2]

/-- The block-comment scrubber is the identity on texts without `/*`. -/
theorem rmBlockCommentsF_id : ∀ (fuel : Nat) {l : List Char},
    hasSub ['/', '*'] l = false → rmBlockCommentsF fuel l = l := by
  intro fuel
  induction fuel with
  | zero => intro l _; rfl
  | succ g ih =>
    intro l h
    rcases l with _ | ⟨c, rest⟩
    · rfl
    · simp only [hasSub, Bool.or_eq_false_iff] at h
      obtain ⟨h1, h2⟩ := h
      have hcond : ¬(c = '/' ∧ rest.head? = some '*') := by
        rintro ⟨rfl, hh⟩
        rcases rest with _ | ⟨d, rest2⟩
        · simp at hh
        · simp only [List.head?_cons, Option.some.injEq] at hh
          subst hh
          simp [List.isPrefixOf] at h1
      simp only [rmBlockCommentsF]
      rw [if_neg hcond, ih h2]

/-- Unfueled wrapper: no `//` means no change. -/
theorem rmLineComments_id {l : List Char} (h : hasSub ['/', '/'] l = false) :
    rmLineComments l = l := rmLineCommentsF_id _ h

/-- Unfueled wrapper: no `/*` means no change. -/
theorem rmBlockComments_id {l : List Char} (h : hasSub ['/', '*'] l = false) :
    rmBlockComments l = l := rmBlockCommentsF_id _ h

/-- The last occurrence of the final character is at the end. -/
theorem rfindChar_getLast {c : Char} {l : List Char} (h : l.getLast? = some c) :
    rfindChar c l = some (l.length - 1) := by
  obtain ⟨t, ht⟩ := reverse_cons_of_getLast h
  unfold rfindChar
  rw [ht, findChar_cons_self]
  simp

/-- The full inclusive slice of a nonempty list is the list itself. -/
theorem sliceIncl_full {l : List Char} (h : l ≠ []) :
    sliceIncl l 0 (l.length - 1) = l := by
  unfold sliceIncl
  have hpos : 1 ≤ l.length := by
    rcases l with _ | ⟨c, rest⟩
    · exact absurd rfl h
    · simp
  rw [List.drop_zero, show l.length - 1 + 1 - 0 = l.length by omega, List.take_length]

/-- C5 counterexample: within the otherwise-valid object
`{"a": "```json 1 ```",}` (comma-free version strictly valid), the parser
returns the scalar `1` from the fence inside the string value, not the value
of the comma-free version. -/
theorem claim5_counterexample :
    json_parse (("\x7b\"a\": \"```json 1 ```\"\x7d").toList) =
        some (.obj [("a".toList, .str ("```json 1 ```".toList))]) ∧
      robust_json_parse (("\x7b\"a\": \"```json 1 ```\",\x7d").toList) = .ok (.num 1) ∧
      JValue.num 1 ≠ .obj [("a".toList, .str ("```json 1 ```".toList))] :=
  ⟨rfl, rfl, fun h => JValue.noConfusion h⟩

/-- C5 amended: for an object text `A ++ w ++ cl :: r` (whitespace `w`,
closing brace/bracket `cl`) that strictly parses, is a fixpoint of the
trailing-comma scrubber, and whose text contains no backtick and no comment
markers, inserting one trailing comma before the whitespace-closer run (which
must break the strict parse) makes the recovery parser return exactly the
strict parse of the comma-free version. -/
theorem claim5_amended (A w r : List Char) (cl : Char) (v : JValue)
    (hw : ∀ c ∈ w, isPyWs c = true) (hcl : closerChar cl = true)
    (hA : A.head? = some '\x7b')
    (hlastT : (A ++ ',' :: (w ++ cl :: r)).getLast? = some '\x7d')
    (hS : json_parse (A ++ (w ++ cl :: r)) = some v)
    (hT : json_parse (A ++ ',' :: (w ++ cl :: r)) = none)
    (hfix : stripTrailingCommas (A ++ (w ++ cl :: r)) = A ++ (w ++ cl :: r))
    (hbt : btick ∉ A ++ ',' :: (w ++ cl :: r))
    (hll : hasSub ['/', '/'] (A ++ ',' :: (w ++ cl :: r)) = false)
    (hlb : hasSub ['/', '*'] (A ++ ',' :: (w ++ cl :: r)) = false) :
    robust_json_parse (A ++ ',' :: (w ++ cl :: r)) = .ok v := by
  obtain ⟨A1, hA1⟩ : ∃ A1, A = '\x7b' :: A1 := by
    rcases A with _ | ⟨a0, A1⟩
    · exact absurd hA (by simp)
    · simp only [List.head?_cons, Option.some.injEq] at hA
      subst hA
      exact ⟨A1, rfl⟩
  have hmem : '\x7b' ∈ A ++ ',' :: (w ++ cl :: r) := by rw [hA1]; simp
  have hstrip : stripPy (A ++ ',' :: (w ++ cl :: r)) ≠ [] :=
    stripBy_ne_nil hmem (by decide)
  have hfT := @fences_nil_of_no_btick true _ hbt
  have hfF := @fences_nil_of_no_btick false _ hbt
  have hfb : findChar '\x7b' (A ++ ',' :: (w ++ cl :: r)) = some 0 := by
    rw [hA1, List.cons_append]
    exact findChar_cons_self _ _
  have hTne : A ++ ',' :: (w ++ cl :: r) ≠ [] := by
    rw [hA1]
    simp
  have hlbr : rfindChar '\x7d' (A ++ ',' :: (w ++ cl :: r)) =
      some ((A ++ ',' :: (w ++ cl :: r)).length - 1) := rfindChar_getLast hlastT
  have hlen2 : 2 ≤ (A ++ ',' :: (w ++ cl :: r)).length := by
    rw [hA1]
    simp only [List.cons_append, List.length_cons, List.length_append]
    omega
  have hlt : 0 < (A ++ ',' :: (w ++ cl :: r)).length - 1 := by omega
  have hsl := sliceIncl_full hTne
  have h345 : strat345 (A ++ ',' :: (w ++ cl :: r)) = some v := by
    unfold strat345
    rw [hfb, hlbr]
    dsimp only
    rw [if_pos hlt, hsl, hT, rmLineComments_id hll, rmBlockComments_id hlb,
      stripTrailingCommas_insert A w r cl hw hcl hfix, hS]
  unfold robust_json_parse
  rw [if_neg hstrip, hfT, hfF]
  simp only [tryTagged, tryUntagged]
  rw [h345]

/-- C5 amended witness at `{"a": 1,}`. -/
theorem claim5_amended_witness :
    json_parse (("\x7b\"a\": 1").toList ++ ([] ++ '\x7d' :: [])) =
        some (.obj [("a".toList, .num 1)]) ∧
      robust_json_parse (("\x7b\"a\": 1").toList ++ ',' :: ([] ++ '\x7d' :: [])) =
        .ok (.obj [("a".toList, .num 1)]) :=
  ⟨rfl, claim5_amended (("\x7b\"a\": 1").toList) [] [] '\x7d'
    (.obj [("a".toList, .num 1)]) (by simp) rfl rfl (by decide) rfl rfl rfl
    (by decide) rfl rfl⟩

/-- A right strip absorbs an appended all-class run. -/
theorem rstripBy_append_ws {p : Char → Bool} {x w : List Char}
    (hw : ∀ c ∈ w, p c = true) : rstripBy p (x ++ w) = rstripBy p x := by
  unfold rstripBy
  rw [List.reverse_append,
    dropWhile_append_nil _ (List.dropWhile_eq_nil_iff.2
      (fun c hc => hw c (List.mem_reverse.1 hc)))]

/-- A two-sided strip absorbs an appended all-class run. -/
theorem stripBy_append_ws {p : Char → Bool} {x w : List Char}
    (hw : ∀ c ∈ w, p c = true) : stripBy p (x ++ w) = stripBy p x := by
  unfold stripBy lstripBy
  by_cases hx : x.dropWhile p = []
  · rw [dropWhile_append_nil _ hx, hx,
      List.dropWhile_eq_nil_iff.2 hw]
  · rw [dropWhile_append_ne _ hx, rstripBy_append_ws hw]

/-- The strict parse ignores appended JSON whitespace. -/
theorem json_parse_append_ws {S W : List Char}
    (hW : ∀ c ∈ W, isJsonWs c = true) : json_parse (S ++ W) = json_parse S := by
  unfold json_parse jstrip
  rw [stripBy_append_ws hW]

/-- A right strip keeps a list whose last character is outside the class. -/
theorem rstripBy_getLast_ne {p : Char → Bool} {S : List Char} {c : Char}
    (h : S.getLast? = some c) (hc : p c = false) : rstripBy p S = S := by
  obtain ⟨t, ht⟩ := reverse_cons_of_getLast h
  unfold rstripBy
  rw [ht, List.dropWhile_cons_of_neg (by simp [hc]), ← ht, List.reverse_reverse]

/-- JSON whitespace is Python whitespace. -/
theorem jsonWs_to_py {c : Char} (h : isJsonWs c = true) : isPyWs c = true := by
  have hc : ((c = ' ' ∨ c = '\t') ∨ c = '\n') ∨ c = '\r' := by
    simpa [isJsonWs] using h
  rcases hc with ((rfl | rfl) | rfl) | rfl <;> rfl

/-- `splitNl` never returns the empty list of lines. -/
theorem splitNl_ne_nil (l : List Char) : splitNl l ≠ [] := by
  rcases l with _ | ⟨c, rest⟩
  · simp [splitNl]
  · unfold splitNl
    by_cases hc : c = '\n'
    · rw [if_pos hc]; simp
    · rw [if_neg hc]
      rcases splitNl rest with _ | ⟨l0, ls0⟩ <;> simp

/-- Joining after prepending a character to the first line. -/
theorem joinNl_cons_eq (c : Char) (l : List Char) (ls : List (List Char)) :
    joinNl ((c :: l) :: ls) = c :: joinNl (l :: ls) := by
  rcases ls with _ | ⟨m, ms⟩ <;> rfl

/-- `joinNl` undoes `splitNl`. -/
theorem joinNl_splitNl (l : List Char) : joinNl (splitNl l) = l := by
  induction l with
  | nil => rfl
  | cons c rest ih =>
    unfold splitNl
    by_cases hc : c = '\n'
    · rw [if_pos hc]
      subst hc
      rcases hsp : splitNl rest with _ | ⟨l0, ls0⟩
      · exact absurd hsp (splitNl_ne_nil rest)
      · show joinNl ([] :: l0 :: ls0) = '\n' :: rest
        rw [show joinNl ([] :: l0 :: ls0) = '\n' :: joinNl (l0 :: ls0) from rfl]
        rw [← hsp, ih]
    · rw [if_neg hc]
      rcases hsp : splitNl rest with _ | ⟨l0, ls0⟩
      · exact absurd hsp (splitNl_ne_nil rest)
      · show joinNl ((c :: l0) :: ls0) = c :: rest
        rw [joinNl_cons_eq, ← hsp, ih]

/-- C4 counterexample: the input is the three-line truncation (at a line
boundary) of the valid four-line object `{"a": "```json 2 ```"}` plus a
trailing newline; its longest (and only) parseable `}`-terminated line prefix
decodes to the object, but the recovery parser returns the scalar `2`
captured from the fence inside the string value. -/
theorem claim4_counterexample :
    robust_json_parse (("\x7b\n\"a\": \"```json 2 ```\"\n\x7d").toList) =
        .ok (.num 2) ∧
      lineTruncationValue (("\x7b\n\"a\": \"```json 2 ```\"\n\x7d").toList) =
        some (.obj [("a".toList, .str ("```json 2 ```".toList))]) ∧
      JValue.num 2 ≠ .obj [("a".toList, .str ("```json 2 ```".toList))] :=
  ⟨rfl, rfl, fun h => JValue.noConfusion h⟩

/-- C4 amended: a truncation of a valid multi-line object admits a parseable
`}`-terminated line prefix only when it is the complete object followed by
whitespace; for those inputs - with a backtick-free object - the recovery
parser returns the decoded value of the longest such prefix (the whole text)
and does not raise. -/
theorem claim4_amended (S W : List Char) (v : JValue)
    (hS : json_parse S = some v)
    (hhead : S.head? = some '\x7b')
    (hlast : S.getLast? = some '\x7d')
    (hbt : btick ∉ S)
    (hW : ∀ c ∈ W, isJsonWs c = true) :
    robust_json_parse (S ++ W) = .ok v ∧ lineTruncationValue (S ++ W) = some v := by
  obtain ⟨S1, hS1⟩ : ∃ S1, S = '\x7b' :: S1 := by
    rcases S with _ | ⟨s0, S1⟩
    · exact absurd hhead (by simp)
    · simp only [List.head?_cons, Option.some.injEq] at hhead
      subst hhead
      exact ⟨S1, rfl⟩
  have hSne : S ≠ [] := by rw [hS1]; simp
  have hlen2 : 2 ≤ S.length := by
    rcases hS2 : S1 with _ | ⟨s1, S2⟩
    · rw [hS2] at hS1
      rw [hS1] at hlast
      simp only [List.getLast?_singleton, Option.some.injEq] at hlast
      exact absurd hlast (by decide)
    · rw [hS1, hS2]; simp
  have hWpy : ∀ c ∈ W, isPyWs c = true := fun c hc => jsonWs_to_py (hW c hc)
  have hbtT : btick ∉ S ++ W := by
    intro hm
    rcases List.mem_append.1 hm with hm | hm
    · exact hbt hm
    · have := hW btick hm
      exact absurd this (by decide)
  have hfT := @fences_nil_of_no_btick true _ hbtT
  have hfF := @fences_nil_of_no_btick false _ hbtT
  have hmem : '\x7b' ∈ S ++ W := List.mem_append.2 (Or.inl (by rw [hS1]; simp))
  have hstrip : stripPy (S ++ W) ≠ [] := stripBy_ne_nil hmem (by decide)
  have hfb : findChar '\x7b' (S ++ W) = some 0 := by
    rw [hS1, List.cons_append]
    exact findChar_cons_self _ _
  have hWnb : '\x7d' ∉ W := by
    intro hm
    have := hW '\x7d' hm
    exact absurd this (by decide)
  have hlb : rfindChar '\x7d' (S ++ W) = some (S.length - 1) := by
    have h := rfindChar_embedded (p := ([] : List Char)) (s := S) (q := W) hWnb hlast hSne
    simpa using h
  have hsl : sliceIncl (S ++ W) 0 (S.length - 1) = S := by
    have h := sliceIncl_embedded [] S W hSne
    simpa using h
  have hlt : 0 < S.length - 1 := by omega
  have h345 : strat345 (S ++ W) = some v := by
    unfold strat345
    rw [hfb, hlb]
    dsimp only
    rw [if_pos hlt, hsl, hS]
  constructor
  · unfold robust_json_parse
    rw [if_neg hstrip, hfT, hfF]
    simp only [tryTagged, tryUntagged]
    rw [h345]
  · unfold lineTruncationValue
    rcases hsp : splitNl (S ++ W) with _ | ⟨l0, ls0⟩
    · exact absurd hsp (splitNl_ne_nil _)
    · have htake : (l0 :: ls0).take (l0 :: ls0).length = l0 :: ls0 := List.take_length _
      have hjoin : joinNl ((l0 :: ls0).take (l0 :: ls0).length) = S ++ W := by
        rw [htake, ← hsp, joinNl_splitNl]
      have hlen : (l0 :: ls0).length = ls0.length + 1 := by simp
      rw [hlen]
      unfold lineTruncationDown
      rw [show ls0.length + 1 = ls0.length + 1 from rfl]
      have hrs : rstripPy (S ++ W) = S := by
        unfold rstripPy
        rw [rstripBy_append_ws hWpy]
        exact rstripBy_getLast_ne hlast (by decide)
      have hpref : joinNl ((l0 :: ls0).take (ls0.length + 1)) = S ++ W := by
        rw [← hlen]
        exact hjoin
      rw [hpref]
      dsimp only
      rw [show rstripPy (S ++ W) = S from hrs]
      rw [show S.getLast? = some '\x7d' from hlast]
      rw [if_pos rfl, json_parse_append_ws hW, hS]

/-- C4 amended witness: the object `{"a": 1}` followed by a newline. -/
theorem claim4_amended_witness :
    json_parse (("\x7b\"a\": 1\x7d").toList) = some (.obj [("a".toList, .num 1)]) ∧
      robust_json_parse (("\x7b\"a\": 1\x7d").toList ++ ['\n']) =
        .ok (.obj [("a".toList, .num 1)]) ∧
      lineTruncationValue (("\x7b\"a\": 1\x7d").toList ++ ['\n']) =
        some (.obj [("a".toList, .num 1)]) :=
  ⟨rfl,
    (claim4_amended (("\x7b\"a\": 1\x7d").toList) ['\n']
      (.obj [("a".toList, .num 1)]) rfl rfl rfl (by decide) (by decide)).1,
    (claim4_amended (("\x7b\"a\": 1\x7d").toList) ['\n']
      (.obj [("a".toList, .num 1)]) rfl rfl rfl (by decide) (by decide)).2⟩

/-- Bind on a successful `Except` computation. -/
theorem exbind_ok {α β : Type} (a : α) (f : α → Except PyExc β) :
    (Except.ok a : Except PyExc α) >>= f = f a := rfl

/-- Bind on a failed `Except` computation. -/
theorem exbind_err {α β : Type} (e : PyExc) (f : α → Except PyExc β) :
    (Except.error e : Except PyExc α) >>= f = .error e := rfl

/-- Python `x.get(k, default)` returns the default on a dict missing `k`. -/
theorem jGetD_missing {v : JValue} {k : List Char} {d : JValue}
    (hd : jIsDict v = true) (hk : jHasKey v k = false) : jGetD v k d = .ok d := by
  cases v with
  | obj kvs =>
    rcases hl : dictLookup kvs k with _ | x
    · unfold jGetD
      dsimp only
      rw [hl]
      rfl
    · unfold jHasKey at hk
      dsimp only at hk
      rw [hl] at hk
      exact absurd hk (by simp)
  | null => exact absurd hd (by simp [jIsDict])
  | bool b => exact absurd hd (by simp [jIsDict])
  | num n => exact absurd hd (by simp [jIsDict])
  | str s => exact absurd hd (by simp [jIsDict])
  | arr xs => exact absurd hd (by simp [jIsDict])

/-- A failing `try`-block lands `parse_features` in its `except` branch. -/
theorem parse_features_err {r : List Char} {e : PyExc}
    (h : parse_features_body r = .error e) :
    parse_features r = featureFailure r e := by
  unfold parse_features
  rw [h]

/-- A failing `try`-block lands `parse_test_points` in its `except` branch. -/
theorem parse_test_points_err {f : JValue} {r : List Char} {e : PyExc}
    (h : parse_test_points_body f r = .error e) :
    parse_test_points f r = stageFailure3 r e := by
  unfold parse_test_points
  rw [h]

/-- A failing `try`-block lands `parse_test_cases` in its `except` branch. -/
theorem parse_test_cases_err {f tp : JValue} {r : List Char} {e : PyExc}
    (h : parse_test_cases_body r f tp = .error e) :
    parse_test_cases r f tp = stageFailure3 r e := by
  unfold parse_test_cases
  rw [h]

/-- C2 counterexample: on a reply that parses to a mapping WITHOUT the
expected "features" key, the `api.extract_features` adapter reports
success=true with an empty record list - it performs no mapping/key/
non-emptiness validation (`result.get("features", [])` is always accepted). -/
theorem claim2_counterexample :
    robust_json_parse (("\x7b\"a\": 1\x7d").toList) =
        .ok (.obj [("a".toList, .num 1)]) ∧
      jHasKey (JValue.obj [("a".toList, .num 1)]) keyFeatures = false ∧
      extract_features_parse (("\x7b\"a\": 1\x7d").toList) =
        ⟨true, [], some (("\x7b\"a\": 1\x7d").toList), none⟩ :=
  ⟨rfl, rfl, rfl⟩

/-- C2 amended: the three `generate_chain` stage adapters validate
mapping/key/non-emptiness and convert every violation (including a recovery
parse failure) into the uniform stage-failure tuple rather than raising,
but the `api.py` adapters do not: a parsed mapping missing the stage key
yields success=true with an empty record list. -/
theorem claim2_amended (r : List Char) (feature tp : JValue) :
    (∀ e, robust_json_parse r = .error e →
        parse_features r = featureFailure r e ∧
          parse_test_points feature r = stageFailure3 r e ∧
          parse_test_cases r feature tp = stageFailure3 r e) ∧
      (∀ v, robust_json_parse r = .ok v →
        (!jIsDict v || !jHasKey v keyFeatures) = true →
        parse_features r = featureFailure r (.valueError msgMissingFeatures)) ∧
      (∀ v, robust_json_parse r = .ok v →
        (!jIsDict v || !jHasKey v keyTestPoints) = true →
        parse_test_points feature r = stageFailure3 r (.valueError msgMissingTestPoints)) ∧
      (∀ v, robust_json_parse r = .ok v →
        (!jIsDict v || !jHasKey v keyTestCases) = true →
        parse_test_cases r feature tp = stageFailure3 r (.valueError msgMissingTestCases)) ∧
      (∀ v, robust_json_parse r = .ok v →
        jIsDict v = true → jHasKey v keyFeatures = true →
        jGetD v keyFeatures (.arr []) = .ok (.arr []) →
        parse_features r = featureFailure r (.valueError msgNoFeatures)) ∧
      (∀ v, robust_json_parse r = .ok v →
        jIsDict v = true → jHasKey v keyTestPoints = true →
        jGetD v keyTestPoints (.arr []) = .ok (.arr []) →
        parse_test_points feature r = stageFailure3 r (.valueError msgNoTestPoints)) ∧
      (∀ v, robust_json_parse r = .ok v →
        jIsDict v = true → jHasKey v keyTestCases = true →
        jGetD v keyTestCases (.arr []) = .ok (.arr []) →
        parse_test_cases r feature tp = stageFailure3 r (.valueError msgNoTestCases)) ∧
      (∀ v, robust_json_parse r = .ok v →
        jIsDict v = true → jHasKey v keyFeatures = false →
        extract_features_parse r = ⟨true, [], some r, none⟩) := by
  refine ⟨?_, ?_, ?_, ?_, ?_, ?_, ?_, ?_⟩
  · intro e he
    refine ⟨parse_features_err ?_, parse_test_points_err ?_, parse_test_cases_err ?_⟩
    · unfold parse_features_body
      rw [he, exbind_err]
    · unfold parse_test_points_body
      rw [he, exbind_err]
    · unfold parse_test_cases_body
      rw [he, exbind_err]
  · intro v hv hb
    apply parse_features_err
    unfold parse_features_body
    rw [hv]
    simp only [exbind_ok]
    rw [if_pos hb]
    rfl
  · intro v hv hb
    apply parse_test_points_err
    unfold parse_test_points_body
    rw [hv]
    simp only [exbind_ok]
    rw [if_pos hb]
    rfl
  · intro v hv hb
    apply parse_test_cases_err
    unfold parse_test_cases_body
    rw [hv]
    simp only [exbind_ok]
    rw [if_pos hb]
    rfl
  · intro v hv hd hk hg
    apply parse_features_err
    unfold parse_features_body
    rw [hv]
    simp only [exbind_ok]
    rw [if_neg (by rw [hd, hk]; decide), hg]
    rfl
  · intro v hv hd hk hg
    apply parse_test_points_err
    unfold parse_test_points_body
    rw [hv]
    simp only [exbind_ok]
    rw [if_neg (by rw [hd, hk]; decide), hg]
    rfl
  · intro v hv hd hk hg
    apply parse_test_cases_err
    unfold parse_test_cases_body
    rw [hv]
    simp only [exbind_ok]
    rw [if_neg (by rw [hd, hk]; decide), hg]
    rfl
  · intro v hv hd hk
    unfold extract_features_parse api_stage_parse
    rw [show api_stage_body keyFeatures r = .ok [] from by
      unfold api_stage_body
      rw [hv]
      simp only [exbind_ok]
      rw [jGetD_missing hd hk]
      rfl]

/-- C2 witness at the keyless mapping `{"a": 1}`: the `generate_chain`
adapter fails the stage, the `api.py` adapter reports success. -/
theorem claim2_amended_witness :
    parse_features (("\x7b\"a\": 1\x7d").toList) =
        featureFailure (("\x7b\"a\": 1\x7d").toList) (.valueError msgMissingFeatures) ∧
      extract_features_parse (("\x7b\"a\": 1\x7d").toList) =
        ⟨true, [], some (("\x7b\"a\": 1\x7d").toList), none⟩ :=
  ⟨(claim2_amended (("\x7b\"a\": 1\x7d").toList) (.obj []) (.obj [])).2.1
      (.obj [("a".toList, .num 1)]) rfl rfl,
    (claim2_amended (("\x7b\"a\": 1\x7d").toList) (.obj []) (.obj [])).2.2.2.2.2.2.2
      (.obj [("a".toList, .num 1)]) rfl rfl rfl⟩

/-- Lookup distributes over appended accumulator segments, first match
winning. -/
theorem alookup_append (k : List Char) (l1 l2 : List (List Char × List JValue)) :
    alookup k (l1 ++ l2) = (match alookup k l1 with
      | some v => some v
      | none => alookup k l2) := by
  induction l1 with
  | nil => rfl
  | cons kv t ih =>
    obtain ⟨k2, v⟩ := kv
    show (if k2 = k then some v else alookup k (t ++ l2)) = _
    by_cases h : k2 = k
    · rw [if_pos h]
      rw [show alookup k ((k2, v) :: t) = some v from by
        show (if k2 = k then some v else alookup k t) = some v
        rw [if_pos h]]
    · rw [if_neg h, ih]
      rw [show alookup k ((k2, v) :: t) = alookup k t from by
        show (if k2 = k then some v else alookup k t) = alookup k t
        rw [if_neg h]]

/-- Code of the decimal digit character. -/
theorem digitChar_toNat {d : Nat} (h : d < 10) :
    (digitChar d).toNat = ('0').toNat + d := by
  interval_cases d <;> rfl

/-- Decimal digit characters are not the comma. -/
theorem digitChar_ne_comma {d : Nat} (h : d < 10) : digitChar d ≠ ',' := by
  interval_cases d <;> decide

/-- Folding the decimal decoder over a fueled rendering shifts the
accumulator and adds the rendered number back. -/
theorem natToStringF_foldl : ∀ (fuel n acc : Nat), n < fuel →
    (natToStringF fuel n).foldl (fun a c => a * 10 + (c.toNat - ('0').toNat)) acc
      = acc * 10 ^ (natToStringF fuel n).length + n := by
  intro fuel
  induction fuel with
  | zero => intro n acc h; exact absurd h (Nat.not_lt_zero n)
  | succ fu ih =>
    intro n acc h
    unfold natToStringF
    by_cases hn : n < 10
    · rw [if_pos hn]
      simp only [List.foldl_cons, List.foldl_nil, List.length_singleton, pow_one]
      rw [digitChar_toNat hn, Nat.add_sub_cancel_left]
    · rw [if_neg hn]
      rw [List.foldl_append]
      rw [ih (n / 10) acc (by
        have h1 : n / 10 < n := Nat.div_lt_self (by omega) (by omega)
        omega)]
      simp only [List.foldl_cons, List.foldl_nil, List.length_append,
        List.length_singleton]
      rw [digitChar_toNat (Nat.mod_lt n (by omega)), Nat.add_sub_cancel_left,
        pow_succ, ← Nat.mul_assoc]
      generalize acc * 10 ^ (natToStringF fu (n / 10)).length = A
      omega

/-- Decoding a rendered natural number recovers it. -/
theorem natToString_decode (n : Nat) : digitsToNat (natToString n) = n := by
  unfold digitsToNat natToString
  have h := natToStringF_foldl (n + 1) n 0 (Nat.lt_succ_self n)
  simpa using h

/-- The decimal rendering of natural numbers is injective. -/
theorem natToString_inj {i j : Nat} (h : natToString i = natToString j) : i = j := by
  have h2 := congrArg digitsToNat h
  rwa [natToString_decode, natToString_decode] at h2

/-- The fueled decimal rendering never contains a comma. -/
theorem natToStringF_no_comma : ∀ (fuel n : Nat), ',' ∉ natToStringF fuel n := by
  intro fuel
  induction fuel with
  | zero => intro n; simp [natToStringF]
  | succ fu ih =>
    intro n
    unfold natToStringF
    by_cases hn : n < 10
    · rw [if_pos hn]
      intro hm
      exact digitChar_ne_comma hn (List.mem_singleton.1 hm).symm
    · rw [if_neg hn]
      intro hm
      rcases List.mem_append.1 hm with hm | hm
      · exact ih (n / 10) hm
      · exact digitChar_ne_comma (Nat.mod_lt n (by omega)) (List.mem_singleton.1 hm).symm

/-- The decimal rendering never contains a comma. -/
theorem natToString_no_comma (n : Nat) : ',' ∉ natToString n :=
  natToStringF_no_comma (n + 1) n

/-- Splitting a comma-joined pair of comma-free first components is
unambiguous. -/
theorem append_comma_inj : ∀ (a a2 b b2 : List Char), ',' ∉ a → ',' ∉ a2 →
    a ++ ',' :: b = a2 ++ ',' :: b2 → a = a2 ∧ b = b2 := by
  intro a
  induction a with
  | nil =>
    intro a2 b b2 ha ha2 h
    cases a2 with
    | nil =>
      simp only [List.nil_append, List.cons.injEq] at h
      exact ⟨rfl, h.2⟩
    | cons c t =>
      simp only [List.nil_append, List.cons_append, List.cons.injEq] at h
      refine absurd ?_ ha2
      rw [← h.1]
      exact List.mem_cons_self ',' t
  | cons c t ih =>
    intro a2 b b2 ha ha2 h
    cases a2 with
    | nil =>
      simp only [List.cons_append, List.nil_append, List.cons.injEq] at h
      refine absurd ?_ ha
      rw [h.1]
      exact List.mem_cons_self ',' t
    | cons c2 t2 =>
      simp only [List.cons_append, List.cons.injEq] at h
      obtain ⟨hc, ht⟩ := h
      have h2 := ih t2 b b2 (fun hm => ha (List.mem_cons_of_mem _ hm))
        (fun hm => ha2 (List.mem_cons_of_mem _ hm)) ht
      exact ⟨by rw [hc, h2.1], h2.2⟩

/-- The composite `f"{i},{j}"` key determines both indices. -/
theorem pipeKey_inj {i j i2 j2 : Nat} (h : pipeKey i j = pipeKey i2 j2) :
    i = i2 ∧ j = j2 := by
  unfold pipeKey at h
  obtain ⟨h1, h2⟩ := append_comma_inj _ _ _ _ (natToString_no_comma i)
    (natToString_no_comma i2) h
  exact ⟨natToString_inj h1, natToString_inj h2⟩

/-- A conditional-append fold only extends its accumulator. -/
theorem foldl_if_append {α β : Type} (P : α → Bool) (f : α → β) :
    ∀ (l : List α) (acc : List β),
      l.foldl (fun a x => if P x then a ++ [f x] else a) acc
        = acc ++ l.foldl (fun a x => if P x then a ++ [f x] else a) [] := by
  intro l
  induction l with
  | nil => intro acc; simp
  | cons x t ih =>
    intro acc
    simp only [List.foldl_cons]
    by_cases h : P x = true
    · rw [if_pos h, if_pos h, ih (acc ++ [f x]), ih ([] ++ [f x])]
      simp
    · rw [if_neg h, if_neg h]
      exact ih acc

/-- A fold whose step only appends to the accumulator factors through the
empty accumulator. -/
theorem foldl_acc_of_step {β γ : Type} (g : List β → γ → List β)
    (hg : ∀ acc kv, g acc kv = acc ++ g [] kv) :
    ∀ (l : List γ) (acc : List β), l.foldl g acc = acc ++ l.foldl g [] := by
  intro l
  induction l with
  | nil => intro acc; simp
  | cons kv t ih =>
    intro acc
    rw [List.foldl_cons, List.foldl_cons, ih (g acc kv), ih (g [] kv),
      hg acc kv, List.append_assoc]

/-- Unrolling the last test-point sub-call of the pipeline's second step. -/
theorem pipelineTestPoints_succ (tpR : Nat → List Char) (maxTP : Option Nat) (n : Nat) :
    pipelineTestPoints tpR maxTP (n + 1) =
      (if (api_test_points_parse (tpR n)).success
       then pipelineTestPoints tpR maxTP n
         ++ [(natToString n, truthyTake maxTP (api_test_points_parse (tpR n)).records)]
       else pipelineTestPoints tpR maxTP n) := by
  unfold pipelineTestPoints
  rw [List.range_succ, List.foldl_append]
  rfl

/-- Every stored test-point slot is the rendered index of a feature below
the bound. -/
theorem pipelineTP_keys (tpR : Nat → List Char) (maxTP : Option Nat) :
    ∀ n, ∀ kv ∈ pipelineTestPoints tpR maxTP n, ∃ i0, kv.1 = natToString i0 ∧ i0 < n := by
  intro n
  induction n with
  | zero => intro kv hkv; simp [pipelineTestPoints] at hkv
  | succ n ih =>
    intro kv hkv
    rw [pipelineTestPoints_succ] at hkv
    by_cases hs : (api_test_points_parse (tpR n)).success = true
    · rw [if_pos hs] at hkv
      rcases List.mem_append.1 hkv with hm | hm
      · obtain ⟨i0, h1, h2⟩ := ih kv hm
        exact ⟨i0, h1, Nat.lt_succ_of_lt h2⟩
      · rw [List.mem_singleton.1 hm]
        exact ⟨n, rfl, Nat.lt_succ_self n⟩
    · rw [if_neg hs] at hkv
      obtain ⟨i0, h1, h2⟩ := ih kv hkv
      exact ⟨i0, h1, Nat.lt_succ_of_lt h2⟩

/-- The stored test-point slots have pairwise distinct keys. -/
theorem pipelineTP_nodup (tpR : Nat → List Char) (maxTP : Option Nat) :
    ∀ n, ((pipelineTestPoints tpR maxTP n).map Prod.fst).Nodup := by
  intro n
  induction n with
  | zero => simp [pipelineTestPoints]
  | succ n ih =>
    rw [pipelineTestPoints_succ]
    by_cases hs : (api_test_points_parse (tpR n)).success = true
    · rw [if_pos hs, List.map_append]
      rw [List.nodup_append]
      refine ⟨ih, List.nodup_singleton _, ?_⟩
      intro k hk hk2
      simp only [List.map_cons, List.map_nil, List.mem_singleton] at hk2
      obtain ⟨kv, hkv, hfst⟩ := List.mem_map.1 hk
      obtain ⟨i0, h1, h2⟩ := pipelineTP_keys tpR maxTP n kv hkv
      rw [← hfst, h1] at hk2
      exact absurd (natToString_inj hk2) (by omega)
    · rw [if_neg hs]
      exact ih

/-- The test-point slot of feature `i` is present exactly when `i` is below
the feature count and its own sub-call succeeded, and then holds that
sub-call's (capped) records. -/
theorem alookup_pipelineTP (tpR : Nat → List Char) (maxTP : Option Nat) :
    ∀ (n i : Nat),
      alookup (natToString i) (pipelineTestPoints tpR maxTP n) =
        (if i < n ∧ (api_test_points_parse (tpR i)).success = true
         then some (truthyTake maxTP (api_test_points_parse (tpR i)).records)
         else none) := by
  intro n
  induction n with
  | zero =>
    intro i
    rw [if_neg (by omega)]
    rfl
  | succ n ih =>
    intro i
    rw [pipelineTestPoints_succ]
    by_cases hs : (api_test_points_parse (tpR n)).success = true
    · rw [if_pos hs, alookup_append, ih i]
      by_cases h1 : i < n ∧ (api_test_points_parse (tpR i)).success = true
      · rw [if_pos h1]
        rw [if_pos ⟨Nat.lt_succ_of_lt h1.1, h1.2⟩]
      · rw [if_neg h1]
        by_cases hin : i = n
        · subst hin
          rw [show alookup (natToString i)
              [(natToString i, truthyTake maxTP (api_test_points_parse (tpR i)).records)]
              = some (truthyTake maxTP (api_test_points_parse (tpR i)).records) from by
            show (if natToString i = natToString i then _ else _) = _
            rw [if_pos rfl]]
          rw [if_pos ⟨Nat.lt_succ_self i, hs⟩]
        · rw [show alookup (natToString i)
              [(natToString n, truthyTake maxTP (api_test_points_parse (tpR n)).records)]
              = none from by
            show (if natToString n = natToString i then _ else _) = _
            rw [if_neg (fun hq => hin (natToString_inj hq).symm)]
            rfl]
          rw [if_neg (fun hq => h1 ⟨by omega, hq.2⟩)]
    · rw [if_neg hs, ih i]
      by_cases h1 : i < n ∧ (api_test_points_parse (tpR i)).success = true
      · rw [if_pos h1, if_pos ⟨Nat.lt_succ_of_lt h1.1, h1.2⟩]
      · rw [if_neg h1]
        by_cases hin : i = n
        · subst hin
          rw [if_neg (fun hq => hs hq.2)]
        · rw [if_neg (fun hq => h1 ⟨by omega, hq.2⟩)]

set_option maxHeartbeats 1000000 in
/-- Unrolling the first stored feature of the pipeline's third step. -/
theorem pipelineTC_cons (tcR : Nat → Nat → List Char) (kv : List Char × List JValue)
    (rest : List (List Char × List JValue)) :
    pipelineTestCases tcR (kv :: rest) =
      ((List.range kv.2.length).foldl
        (fun acc2 j =>
          if (api_test_cases_parse (tcR (digitsToNat kv.1) j)).success
          then acc2 ++
            [(kv.1 ++ ',' :: natToString j,
              (api_test_cases_parse (tcR (digitsToNat kv.1) j)).records)]
          else acc2)
        [])
      ++ pipelineTestCases tcR rest := by
  unfold pipelineTestCases
  rw [List.foldl_cons]
  exact foldl_acc_of_step
    (fun acc kv2 =>
      (List.range kv2.2.length).foldl
        (fun acc2 j =>
          if (api_test_cases_parse (tcR (digitsToNat kv2.1) j)).success
          then acc2 ++
            [(kv2.1 ++ ',' :: natToString j,
              (api_test_cases_parse (tcR (digitsToNat kv2.1) j)).records)]
          else acc2)
        acc)
    (fun acc kv2 => foldl_if_append
      (fun j => (api_test_cases_parse (tcR (digitsToNat kv2.1) j)).success)
      (fun j => (kv2.1 ++ ',' :: natToString j,
        (api_test_cases_parse (tcR (digitsToNat kv2.1) j)).records))
      (List.range kv2.2.length) acc)
    rest _

/-- The composite-key slot produced by one stored feature's test-case loop:
present exactly for that feature's index, an in-range test-point index, and
a successful sub-call. -/
theorem innerTC_lookup (tcR : Nat → Nat → List Char) (i0 : Nat) :
    ∀ (m i j : Nat),
      alookup (pipeKey i j)
        ((List.range m).foldl
          (fun acc2 j2 =>
            if (api_test_cases_parse (tcR i0 j2)).success
            then acc2 ++
              [(natToString i0 ++ ',' :: natToString j2,
                (api_test_cases_parse (tcR i0 j2)).records)]
            else acc2)
          [])
        = (if i = i0 ∧ j < m ∧ (api_test_cases_parse (tcR i0 j)).success = true
           then some (api_test_cases_parse (tcR i0 j)).records
           else none) := by
  intro m
  induction m with
  | zero =>
    intro i j
    rw [if_neg (fun hq => Nat.not_lt_zero j hq.2.1)]
    rfl
  | succ m ih =>
    intro i j
    rw [List.range_succ, List.foldl_append]
    simp only [List.foldl_cons, List.foldl_nil]
    by_cases hs : (api_test_cases_parse (tcR i0 m)).success = true
    · rw [if_pos hs, alookup_append, ih i j]
      by_cases h1 : i = i0 ∧ j < m ∧ (api_test_cases_parse (tcR i0 j)).success = true
      · rw [if_pos h1]
        rw [if_pos ⟨h1.1, Nat.lt_succ_of_lt h1.2.1, h1.2.2⟩]
      · rw [if_neg h1]
        by_cases he : natToString i0 ++ ',' :: natToString m = pipeKey i j
        · obtain ⟨hi, hj⟩ := pipeKey_inj (show pipeKey i0 m = pipeKey i j from he)
          rw [show alookup (pipeKey i j)
              [(natToString i0 ++ ',' :: natToString m,
                (api_test_cases_parse (tcR i0 m)).records)]
              = some ((api_test_cases_parse (tcR i0 m)).records) from by
            show (if natToString i0 ++ ',' :: natToString m = pipeKey i j
              then _ else _) = _
            rw [if_pos he]]
          rw [hj] at hs
          rw [hj]
          rw [if_pos ⟨hi.symm, Nat.lt_succ_self j, hs⟩]
        · rw [show alookup (pipeKey i j)
              [(natToString i0 ++ ',' :: natToString m,
                (api_test_cases_parse (tcR i0 m)).records)]
              = none from by
            show (if natToString i0 ++ ',' :: natToString m = pipeKey i j
              then _ else _) = _
            rw [if_neg he]
            rfl]
          rw [if_neg (fun hq => by
            have hjm : j < m ∨ j = m := by omega
            rcases hjm with hlt | heq
            · exact h1 ⟨hq.1, hlt, hq.2.2⟩
            · refine he ?_
              unfold pipeKey
              rw [hq.1, heq])]
    · rw [if_neg hs, ih i j]
      by_cases h1 : i = i0 ∧ j < m ∧ (api_test_cases_parse (tcR i0 j)).success = true
      · rw [if_pos h1, if_pos ⟨h1.1, Nat.lt_succ_of_lt h1.2.1, h1.2.2⟩]
      · rw [if_neg h1, if_neg (fun hq => by
          have hjm : j < m ∨ j = m := by omega
          rcases hjm with hlt | heq
          · exact h1 ⟨hq.1, hlt, hq.2.2⟩
          · exact hs (heq ▸ hq.2.2))]

/-- A feature index stored in no test-point slot contributes no composite
key. -/
theorem pipelineTC_absent (tcR : Nat → Nat → List Char) :
    ∀ (tps : List (List Char × List JValue)) (i j : Nat),
      (∀ kv ∈ tps, ∃ i0, kv.1 = natToString i0 ∧ i0 ≠ i) →
      alookup (pipeKey i j) (pipelineTestCases tcR tps) = none := by
  intro tps
  induction tps with
  | nil => intro i j h; rfl
  | cons kv rest ih =>
    intro i j h
    obtain ⟨i0, hk, hne⟩ := h kv (List.mem_cons_self kv rest)
    rw [pipelineTC_cons, alookup_append, hk, natToString_decode]
    rw [innerTC_lookup tcR i0 kv.2.length i j]
    rw [if_neg (fun hq => hne hq.1.symm)]
    exact ih i j (fun kv2 hm => h kv2 (List.mem_cons_of_mem kv hm))

/-- The composite-key slot (i, j) of the pipeline's third step is determined
by the stored test-point slot of feature `i` and the (i, j) sub-call alone. -/
theorem alookup_pipelineTC (tcR : Nat → Nat → List Char) :
    ∀ (tps : List (List Char × List JValue)),
      (∀ kv ∈ tps, ∃ i0, kv.1 = natToString i0) →
      ((tps.map Prod.fst).Nodup) →
      ∀ (i j : Nat),
      alookup (pipeKey i j) (pipelineTestCases tcR tps) =
        (match alookup (natToString i) tps with
         | none => none
         | some L =>
           if j < L.length ∧ (api_test_cases_parse (tcR i j)).success = true
           then some (api_test_cases_parse (tcR i j)).records
           else none) := by
  intro tps
  induction tps with
  | nil => intro _ _ i j; rfl
  | cons kv rest ih =>
    obtain ⟨k1, L⟩ := kv
    intro hkeys hnd i j
    obtain ⟨i0, hk⟩ := hkeys (k1, L) (List.mem_cons_self _ rest)
    dsimp only at hk
    subst hk
    have hnd2 : ((natToString i0) :: rest.map Prod.fst).Nodup := by simpa using hnd
    rw [pipelineTC_cons, alookup_append]
    dsimp only
    rw [natToString_decode]
    rw [innerTC_lookup tcR i0 L.length i j]
    by_cases hii : i = i0
    · subst hii
      rw [show alookup (natToString i) ((natToString i, L) :: rest) = some L from by
        show (if natToString i = natToString i then some L else _) = _
        rw [if_pos rfl]]
      by_cases hc : j < L.length ∧ (api_test_cases_parse (tcR i j)).success = true
      · rw [if_pos ⟨rfl, hc.1, hc.2⟩]
        dsimp only
        rw [if_pos hc]
      · rw [if_neg (fun hq => hc ⟨hq.2.1, hq.2.2⟩)]
        dsimp only
        rw [if_neg hc]
        apply pipelineTC_absent
        intro kv2 hm
        obtain ⟨i1, hk1⟩ := hkeys kv2 (List.mem_cons_of_mem _ hm)
        refine ⟨i1, hk1, fun he => ?_⟩
        refine (List.nodup_cons.1 hnd2).1 ?_
        rw [← he, ← hk1]
        exact List.mem_map_of_mem Prod.fst hm
    · rw [if_neg (fun hq => hii hq.1)]
      dsimp only
      rw [show alookup (natToString i) ((natToString i0, L) :: rest)
          = alookup (natToString i) rest from by
        show (if natToString i0 = natToString i then some L else _) = _
        rw [if_neg (fun hq => hii (natToString_inj hq).symm)]]
      exact ih (fun kv2 hm => hkeys kv2 (List.mem_cons_of_mem _ hm))
        (List.nodup_cons.1 hnd2).2 i j

/-- C8: the full pipeline reports success exactly when feature extraction
succeeded, and - on success - each test-point slot and each composite
test-case slot is a function of that slot's own sub-call alone (a failed
sub-call only removes its own key; siblings are kept). -/
theorem claim8_isolation (fReply : List Char) (tpR : Nat → List Char)
    (tcR : Nat → Nat → List Char) (maxF maxTP : Option Nat) :
    (run_full_pipeline fReply tpR tcR maxF maxTP).success
        = (extract_features_parse fReply).success ∧
      ((extract_features_parse fReply).success = true →
        (run_full_pipeline fReply tpR tcR maxF maxTP).features
            = truthyTake maxF (extract_features_parse fReply).records ∧
          (∀ i, alookup (natToString i)
              (run_full_pipeline fReply tpR tcR maxF maxTP).test_points =
            (if i < (truthyTake maxF (extract_features_parse fReply).records).length
                ∧ (api_test_points_parse (tpR i)).success = true
             then some (truthyTake maxTP (api_test_points_parse (tpR i)).records)
             else none)) ∧
          (∀ i j, alookup (pipeKey i j)
              (run_full_pipeline fReply tpR tcR maxF maxTP).test_cases =
            (match alookup (natToString i)
                (run_full_pipeline fReply tpR tcR maxF maxTP).test_points with
             | none => none
             | some L =>
               if j < L.length ∧ (api_test_cases_parse (tcR i j)).success = true
               then some (api_test_cases_parse (tcR i j)).records
               else none))) := by
  by_cases hf : (extract_features_parse fReply).success = true
  · have hR : run_full_pipeline fReply tpR tcR maxF maxTP =
        { success := true,
          features := truthyTake maxF (extract_features_parse fReply).records,
          test_points := pipelineTestPoints tpR maxTP
            (truthyTake maxF (extract_features_parse fReply).records).length,
          test_cases := pipelineTestCases tcR
            (pipelineTestPoints tpR maxTP
              (truthyTake maxF (extract_features_parse fReply).records).length),
          error := none } := by
      unfold run_full_pipeline
      simp only [hf, Bool.not_true]
      rw [if_neg (by decide)]
    constructor
    · rw [hR, hf]
    · intro _
      refine ⟨by rw [hR], ?_, ?_⟩
      · intro i
        rw [hR]
        exact alookup_pipelineTP tpR maxTP _ i
      · intro i j
        rw [hR]
        exact alookup_pipelineTC tcR _
          (fun kv hkv => Exists.imp (fun i0 h => h.1)
            (pipelineTP_keys tpR maxTP _ kv hkv))
          (pipelineTP_nodup tpR maxTP _) i j
  · have hff : (extract_features_parse fReply).success = false := by
      rcases hb : (extract_features_parse fReply).success with _ | _
      · rfl
      · exact absurd hb hf
    have hR : run_full_pipeline fReply tpR tcR maxF maxTP =
        { success := false, features := [], test_points := [], test_cases := []
          error := some ("Failed to extract features: ".toList
            ++ ((extract_features_parse fReply).error.getD [])) } := by
      unfold run_full_pipeline
      simp only [hff, Bool.not_false]
      rw [if_pos trivial]
    exact ⟨by rw [hR, hff], fun hc => absurd hc hf⟩

/-- C8 witness: one feature, a successful test-point sub-call, a failing
test-case sub-call; success tracks the feature stage, the test-point slot is
kept, the test-case slot is absent. -/
theorem claim8_isolation_witness :
    (run_full_pipeline (("\x7b\"features\": [\x7b\"a\": 1\x7d]\x7d").toList)
          (fun _ => ("\x7b\"test_points\": [\x7b\"b\": 2\x7d]\x7d").toList)
          (fun _ _ => ("no json".toList)) none none).success
        = (extract_features_parse
            (("\x7b\"features\": [\x7b\"a\": 1\x7d]\x7d").toList)).success ∧
      alookup (natToString 0)
          (run_full_pipeline (("\x7b\"features\": [\x7b\"a\": 1\x7d]\x7d").toList)
            (fun _ => ("\x7b\"test_points\": [\x7b\"b\": 2\x7d]\x7d").toList)
            (fun _ _ => ("no json".toList)) none none).test_points
        = some [JValue.obj [("b".toList, JValue.num 2)]] ∧
      alookup (pipeKey 0 0)
          (run_full_pipeline (("\x7b\"features\": [\x7b\"a\": 1\x7d]\x7d").toList)
            (fun _ => ("\x7b\"test_points\": [\x7b\"b\": 2\x7d]\x7d").toList)
            (fun _ _ => ("no json".toList)) none none).test_cases
        = none :=
  ⟨(claim8_isolation (("\x7b\"features\": [\x7b\"a\": 1\x7d]\x7d").toList)
      (fun _ => ("\x7b\"test_points\": [\x7b\"b\": 2\x7d]\x7d").toList)
      (fun _ _ => ("no json".toList)) none none).1,
    (((claim8_isolation (("\x7b\"features\": [\x7b\"a\": 1\x7d]\x7d").toList)
        (fun _ => ("\x7b\"test_points\": [\x7b\"b\": 2\x7d]\x7d").toList)
        (fun _ _ => ("no json".toList)) none none).2 rfl).2.1 0).trans (by rfl),
    (((claim8_isolation (("\x7b\"features\": [\x7b\"a\": 1\x7d]\x7d").toList)
        (fun _ => ("\x7b\"test_points\": [\x7b\"b\": 2\x7d]\x7d").toList)
        (fun _ _ => ("no json".toList)) none none).2 rfl).2.2 0 0).trans (by rfl)⟩

/-- The head of the remaining snapshot stream extends the running content. -/
theorem vllmStreamGo_head_ext : ∀ (chunks : List (Option (List Char)))
    (content s : List Char) (rest2 : List (List Char)),
    vllmStreamGo content chunks = s :: rest2 → ∃ t, s = content ++ t := by
  intro chunks
  induction chunks with
  | nil => intro content s rest2 h; exact absurd h (by simp [vllmStreamGo])
  | cons c rest ih =>
    intro content s rest2 h
    rcases c with _ | d
    · exact ih content s rest2 h
    · unfold vllmStreamGo at h
      injection h with h1 _
      exact ⟨d, h1.symm⟩

/-- With nonempty deltas, the head of the remaining snapshot stream strictly
extends the running content. -/
theorem vllmStreamGo_head_ext_ne : ∀ (chunks : List (Option (List Char)))
    (content s : List Char) (rest2 : List (List Char)),
    (∀ d, some d ∈ chunks → d ≠ []) →
    vllmStreamGo content chunks = s :: rest2 → ∃ t, t ≠ [] ∧ s = content ++ t := by
  intro chunks
  induction chunks with
  | nil => intro content s rest2 _ h; exact absurd h (by simp [vllmStreamGo])
  | cons c rest ih =>
    intro content s rest2 hne h
    rcases c with _ | d
    · exact ih content s rest2 (fun d2 hd => hne d2 (List.mem_cons_of_mem _ hd)) h
    · unfold vllmStreamGo at h
      injection h with h1 _
      exact ⟨d, hne d (List.mem_cons_self _ rest), h1.symm⟩

/-- Successive snapshots of the streaming loop are prefix extensions. -/
theorem vllmStreamGo_chain : ∀ (chunks : List (Option (List Char)))
    (content : List Char),
    List.Chain' (fun a b => ∃ t, b = a ++ t) (vllmStreamGo content chunks) := by
  intro chunks
  induction chunks with
  | nil => intro content; exact List.chain'_nil
  | cons c rest ih =>
    intro content
    rcases c with _ | d
    · exact ih content
    · show List.Chain' _ ((content ++ d) :: vllmStreamGo (content ++ d) rest)
      rw [List.chain'_cons']
      refine ⟨?_, ih (content ++ d)⟩
      intro b hb
      rcases hgo : vllmStreamGo (content ++ d) rest with _ | ⟨s, r2⟩
      · rw [hgo] at hb; exact absurd hb (by simp)
      · rw [hgo] at hb
        simp only [List.head?_cons, Option.mem_def, Option.some.injEq] at hb
        obtain ⟨t, ht⟩ := vllmStreamGo_head_ext rest (content ++ d) s r2 hgo
        exact ⟨t, by rw [← hb, ht]⟩

/-- With nonempty deltas, successive snapshots strictly grow. -/
theorem vllmStreamGo_chain_strict : ∀ (chunks : List (Option (List Char)))
    (content : List Char),
    (∀ d, some d ∈ chunks → d ≠ []) →
    List.Chain' (fun a b => ∃ t, t ≠ [] ∧ b = a ++ t) (vllmStreamGo content chunks) := by
  intro chunks
  induction chunks with
  | nil => intro content _; exact List.chain'_nil
  | cons c rest ih =>
    intro content hne
    rcases c with _ | d
    · exact ih content (fun d2 hd => hne d2 (List.mem_cons_of_mem _ hd))
    · show List.Chain' _ ((content ++ d) :: vllmStreamGo (content ++ d) rest)
      rw [List.chain'_cons']
      refine ⟨?_, ih (content ++ d) (fun d2 hd => hne d2 (List.mem_cons_of_mem _ hd))⟩
      intro b hb
      rcases hgo : vllmStreamGo (content ++ d) rest with _ | ⟨s, r2⟩
      · rw [hgo] at hb; exact absurd hb (by simp)
      · rw [hgo] at hb
        simp only [List.head?_cons, Option.mem_def, Option.some.injEq] at hb
        obtain ⟨t, htne, ht⟩ := vllmStreamGo_head_ext_ne rest (content ++ d) s r2
          (fun d2 hd => hne d2 (List.mem_cons_of_mem _ hd)) hgo
        exact ⟨t, htne, by rw [← hb, ht]⟩

/-- A delta-free chunk list contributes nothing to the accumulated reply. -/
theorem concatDeltas_none : ∀ (rest : List (Option (List Char))),
    rest.any (fun c => c.isSome) = false →
    rest.foldl (fun acc c => acc ++ c.getD []) [] = [] := by
  intro rest
  induction rest with
  | nil => intro _; rfl
  | cons c t ih =>
    intro h
    simp only [List.any_cons, Bool.or_eq_false_iff] at h
    rcases c with _ | d
    · exact ih h.2
    · exact absurd h.1 (by simp)

/-- The last snapshot - the text the parser finally receives - is the running
content plus the concatenation of all deltas, or the fallback when no chunk
carried a delta. -/
theorem vllmStreamGo_getLast : ∀ (chunks : List (Option (List Char)))
    (content d : List Char),
    (vllmStreamGo content chunks).foldl (fun _ s => s) d
      = (if chunks.any (fun c => c.isSome)
         then content ++ chunks.foldl (fun acc c => acc ++ c.getD []) []
         else d) := by
  intro chunks
  induction chunks with
  | nil => intro content d; rfl
  | cons c rest ih =>
    intro content d
    rcases c with _ | dl
    · rw [show vllmStreamGo content (none :: rest) = vllmStreamGo content rest from rfl]
      rw [ih content d]
      rw [show ((none :: rest).any fun c2 => c2.isSome) = (rest.any fun c2 => c2.isSome)
        from by simp]
      rw [show ((none :: rest).foldl (fun acc c2 => acc ++ c2.getD []) [])
          = rest.foldl (fun acc c2 => acc ++ c2.getD []) [] from by
        simp only [List.foldl_cons]
        rfl]
    · rw [show vllmStreamGo content (some dl :: rest)
          = (content ++ dl) :: vllmStreamGo (content ++ dl) rest from rfl]
      rw [List.foldl_cons]
      rw [ih (content ++ dl) (content ++ dl)]
      rw [show ((some dl :: rest).any fun c2 => c2.isSome) = true from by simp]
      rw [if_pos rfl]
      rw [show ((some dl :: rest).foldl (fun acc c2 => acc ++ c2.getD []) [])
          = dl ++ rest.foldl (fun acc c2 => acc ++ c2.getD []) [] from by
        simp only [List.foldl_cons]
        rw [foldl_acc_of_step (fun acc c2 => acc ++ c2.getD [])
          (fun acc c2 => by simp) rest ([] ++ (some dl).getD [])]
        simp]
      by_cases hany : (rest.any fun c2 => c2.isSome) = true
      · rw [if_pos hany, List.append_assoc]
      · rw [if_neg hany]
        have hfalse : (rest.any fun c2 => c2.isSome) = false := by
          rcases hh : (rest.any fun c2 => c2.isSome) with _ | _
          · rfl
          · exact absurd hh hany
        rw [concatDeltas_none rest hfalse]
        simp

/-- C9 counterexample: an empty-string delta (`delta.content = ""`, which is
not `None`) re-yields the unchanged accumulated content, so two consecutive
snapshots are equal - the stream is prefix-monotone but not strictly
prefix-growing. -/
theorem claim9_counterexample :
    generate_response_vllm_stream [some ("a".toList), some []]
      = ["a".toList, "a".toList] := rfl

/-- C9 amended: snapshots are always prefix extensions, surfaced in order,
and strictly growing when every delta is nonempty; the Gradio stream
consumer yields one progress rendering per snapshot and invokes the recovery
parser exactly once, on the concatenation of all deltas (the final reply
text), never on a partial snapshot. -/
theorem claim9_amended (chunks : List (Option (List Char))) :
    List.Chain' (fun a b => ∃ t, b = a ++ t) (generate_response_vllm_stream chunks) ∧
      ((∀ d, some d ∈ chunks → d ≠ []) →
        List.Chain' (fun a b => ∃ t, t ≠ [] ∧ b = a ++ t)
          (generate_response_vllm_stream chunks)) ∧
      (generate_features_stream chunks).1
          = (generate_response_vllm_stream chunks).map streamProgressDisplay ∧
      (generate_features_stream chunks).2
          = parse_features (chunks.foldl (fun acc c => acc ++ c.getD []) []) := by
  refine ⟨vllmStreamGo_chain chunks [], fun hne => vllmStreamGo_chain_strict chunks [] hne,
    rfl, ?_⟩
  rw [show (generate_features_stream chunks).2
      = parse_features ((vllmStreamGo [] chunks).foldl (fun _ s => s) []) from rfl]
  rw [vllmStreamGo_getLast chunks [] []]
  by_cases hany : (chunks.any fun c => c.isSome) = true
  · rw [if_pos hany, List.nil_append]
  · rw [if_neg hany]
    have hfalse : (chunks.any fun c => c.isSome) = false := by
      rcases hh : (chunks.any fun c => c.isSome) with _ | _
      · rfl
      · exact absurd hh hany
    rw [concatDeltas_none chunks hfalse]

/-- C9 witness: two nonempty deltas with a `None` keep-alive between them
give strictly growing snapshots. -/
theorem claim9_amended_witness :
    List.Chain' (fun a b => ∃ t, t ≠ [] ∧ b = a ++ t)
      (generate_response_vllm_stream [some ("ab".toList), none, some ("c".toList)]) :=
  (claim9_amended [some ("ab".toList), none, some ("c".toList)]).2.1
    (by
      intro d hd
      simp only [List.mem_cons, List.not_mem_nil, or_false] at hd
      rcases hd with h | h | h
      · injection h with h2
        rw [h2]
        decide
      · exact Option.noConfusion h
      · injection h with h2
        rw [h2]
        decide)

end TCG
